import Mathlib

/-!
MABE2 configuration scopes: a heap model of `ConfigScope`.

`ConfigScope` (source/config/ConfigScope.h) is a node of a pointer-linked tree:
every entry carries a back pointer `scope` to the scope that created it and a
scope owns a `emp::map<std::string, emp::Ptr<ConfigEntry>>` of children.
Object identity matters (cloning, owner back-references), so the embedding is
an explicit heap: an address is an index into a list of objects, `emp::NewPtr`
appends a cell, a method receives the heap and the address of `this` and
returns the new heap.  A method call on an address that does not hold an
object of the required class, or a recursion that runs out of fuel, yields
`none`.

`std::string` is modelled by `String`; the ordering of `std::string` (byte-wise
lexicographic) coincides on UTF-8 text with the lexicographic order of the code
points, which is what `strLt` computes.

The destructor is modelled by the list of the addresses it releases.
`EvalPacking::evaluate` (source/evaluate/static/EvalPacking.hpp) is a pure loop over a bit
vector; it is embedded as a fold of the loop body over a list of booleans.
-/

namespace MABE

/-! ## Data model -/

/-- The derived-class part of an entry: `ConfigScope` adds the member `entries`
(an `emp::map`, kept as the list of its pairs in iteration order, i.e. ascending
key order); `ConfigEntry_Linked<T>` adds the reference `var`, kept as the
index of the external variable it aliases. -/
inductive Body where
  | scope (entries : List (String × Nat))
  | linked (var : Nat)
  deriving DecidableEq, Repr

/-- Modelled from the spec: the base class `ConfigEntry` (ConfigEntry.h is not part of the
sources at hand).  Spec section 3: an entry has a name, a description, a textual default
snapshot and a non-owning back-reference to its containing scope (null for a root).  The
field names are the ones `ConfigScope` uses (`name`, `desc`, `default_val`, `scope`). -/
structure ConfigEntry where
  name : String
  desc : String
  default_val : String
  scope : Option Nat
  body : Body
  deriving DecidableEq, Repr

/-- The heap: cell `a` holds the object at address `a`. -/
abbrev Heap := List ConfigEntry

/-- The external (host-owned) variables that linked entries alias, by index. -/
abbrev Vars := Nat → Int

/-! ## `emp::map` -/

/-- `entries.find(in_name)`: the value stored under the key, `none` for `entries.end()`. -/
def mapFind : List (String × Nat) → String → Option Nat
  | [], _ => none
  | (k, v) :: rest, n => if k = n then some v else mapFind rest n

/-- Lexicographic comparison of two character sequences, as `std::string::compare`
does it: the first differing position decides, and a proper initial segment is smaller. -/
def charsLt : List Char → List Char → Bool
  | [], [] => false
  | [], _ :: _ => true
  | _ :: _, [] => false
  | a :: as, b :: bs =>
    if a.toNat < b.toNat then true
    else if b.toNat < a.toNat then false
    else charsLt as bs

/-- The key order of `emp::map<std::string, ...>`: `std::less<std::string>`. -/
def strLt (a b : String) : Bool := charsLt a.data b.data

/-- `entries[name] = new_ptr` on an ordered map: walk the keys in ascending order;
the pair is put in front of the first larger key, and a key equivalent to `name`
(neither smaller nor larger) keeps its place and gets the new value. -/
def mapSet : List (String × Nat) → String → Nat → List (String × Nat)
  | [], n, v => [(n, v)]
  | (k, w) :: rest, n, v =>
    if strLt n k then (n, v) :: (k, w) :: rest
    else if strLt k n then (k, w) :: mapSet rest n v
    else (k, v) :: rest

/-! ## Constructors -/

/-- `ConfigScope(_name, _desc, _scope) : ConfigEntry(_name, _desc, _scope) { }`:
the three arguments go to the base class, `entries` starts empty and the default
text, which receives no argument, starts as the empty string. -/
def ConfigScope.new (name desc : String) (scope : Option Nat) : ConfigEntry :=
  { name := name, desc := desc, default_val := "", scope := scope, body := Body.scope [] }

/-- Modelled from the spec: the constructor `ConfigEntry_Linked<T>(name, var, desc, scope)`
that `LinkVar` calls (ConfigEntry.h is missing).  It binds `var` by reference and hands
name, description and owner to the base class; it is not given a default value. -/
def ConfigEntry_Linked.new (name : String) (var : Nat) (desc : String)
    (scope : Option Nat) : ConfigEntry :=
  { name := name, desc := desc, default_val := "", scope := scope, body := Body.linked var }

/-- The host creates a scope object: `emp::NewPtr<ConfigScope>(name, desc, scope)`. -/
def construct (h : Heap) (name desc : String) (scope : Option Nat) : Heap × Nat :=
  (h ++ [ConfigScope.new name desc scope], h.length)

/-! ## Methods of `ConfigScope` -/

/-- The statement `entries[k] = c;` executed inside the scope object at `self`. -/
def setEntry (h : Heap) (self : Nat) (k : String) (c : Nat) : Option Heap :=
  match h[self]? with
  | none => none
  | some e =>
    match e.body with
    | Body.linked _ => none
    | Body.scope entries => some (h.set self { e with body := Body.scope (mapSet entries k c) })

/-- The statement `default_val = s;` executed inside the object at `self`. -/
def setDefault (h : Heap) (self : Nat) (s : String) : Option Heap :=
  match h[self]? with
  | none => none
  | some e => some (h.set self { e with default_val := s })

/-- `ConfigScope::Add<T>(name, args...)`: allocate the new entry, store its pointer
under `name` in `entries` of `this`, return it.  `obj` is the object that
`T(name, args...)` constructs. -/
def Add (h : Heap) (this : Nat) (name : String) (obj : ConfigEntry) : Option (Heap × Nat) :=
  match h[this]? with
  | none => none
  | some e =>
    match e.body with
    | Body.linked _ => none
    | Body.scope _ =>
      let new_ptr := h.length
      match setEntry (h ++ [obj]) this name new_ptr with
      | none => none
      | some h1 => some (h1, new_ptr)

/-- `ConfigScope::AddScope(name, desc)`: `Add<ConfigScope>(name, desc, this)`. -/
def AddScope (h : Heap) (this : Nat) (name desc : String) : Option (Heap × Nat) :=
  Add h this name (ConfigScope.new name desc (some this))

/-- `ConfigScope::LinkVar(var, name, desc, default_val)`:
`Add<ConfigEntry_Linked<VAR_T>>(name, var, desc, this)`; the body never mentions
`default_val`. -/
def LinkVar (h : Heap) (this : Nat) (var : Nat) (name desc : String) (_default_val : Int) :
    Option (Heap × Nat) :=
  Add h this name (ConfigEntry_Linked.new name var desc (some this))

/-- `ConfigScope::GetEntry(in_name)`: `some none` is the null pointer. -/
def GetEntry (h : Heap) (this : Nat) (in_name : String) : Option (Option Nat) :=
  match h[this]? with
  | none => none
  | some e =>
    match e.body with
    | Body.linked _ => none
    | Body.scope entries =>
      match mapFind entries in_name with
      | none => some none
      | some it => some (some it)

/-- `ConfigScope::LookupEntry(in_name, scan_scopes)` with an explicit recursion budget.
The recursive call is `scope->LookupEntry(in_name)`, so the flag is back at its
default `true` in the parent. -/
def LookupEntryFuel : Nat → Heap → Nat → String → Bool → Option (Option Nat)
  | 0, _, _, _, _ => none
  | fuel + 1, h, this, in_name, scan_scopes =>
    match h[this]? with
    | none => none
    | some e =>
      match e.body with
      | Body.linked _ => none
      | Body.scope entries =>
        match mapFind entries in_name with
        | none =>
          match e.scope with
          | none => some none
          | some parent =>
            if !scan_scopes then some none
            else LookupEntryFuel fuel h parent in_name true
        | some it => some (some it)

/-- `ConfigScope::LookupEntry`: a parent chain never has more scopes than the heap has cells. -/
def LookupEntry (h : Heap) (this : Nat) (in_name : String) (scan_scopes : Bool) :
    Option (Option Nat) :=
  LookupEntryFuel h.length h this in_name scan_scopes

/-- The loop `for (const auto & x : in.entries) entries[x.first] = x.second->Clone();`
of the copy constructor, running in the object at address `self`; `clone` is the
virtual `Clone` of the children. -/
def cloneEntries (clone : Heap → Nat → Option (Heap × Nat)) :
    Heap → Nat → List (String × Nat) → Option Heap
  | h, _, [] => some h
  | h, self, (k, c) :: rest =>
    match clone h c with
    | none => none
    | some (h1, c1) =>
      match setEntry h1 self k c1 with
      | none => none
      | some h2 => cloneEntries clone h2 self rest

/-- The virtual `Clone()`.  `ConfigScope::Clone` is `emp::NewPtr<ConfigScope>(*this)`:
the cell is allocated, the copy constructor copies the base class (`ConfigEntry(in)`),
starts with an empty map and fills it with clones of the children.
Modelled from the spec: `ConfigEntry_Linked::Clone` (ConfigEntry.h is missing) copies the
entry, alias included (spec 4.1). -/
def CloneFuel : Nat → Heap → Nat → Option (Heap × Nat)
  | 0, _, _ => none
  | fuel + 1, h, this =>
    match h[this]? with
    | none => none
    | some e =>
      match e.body with
      | Body.linked _ => some (h ++ [e], h.length)
      | Body.scope entries =>
        match cloneEntries (CloneFuel fuel) (h ++ [{ e with body := Body.scope [] }])
            h.length entries with
        | none => none
        | some h1 => some (h1, h.length)

/-- `Clone()` on the object at `this`. -/
def Clone (h : Heap) (this : Nat) : Option (Heap × Nat) :=
  CloneFuel h.length h this

/-- The loop `for (auto & x : entries) x.second->UpdateDefault();`. -/
def updateEntries (update : Heap → Nat → Option Heap) :
    Heap → List (String × Nat) → Option Heap
  | h, [] => some h
  | h, (_, c) :: rest =>
    match update h c with
    | none => none
    | some h1 => updateEntries update h1 rest

/-- The virtual `UpdateDefault()`.  `ConfigScope::UpdateDefault` updates every child and then
sets `default_val = ""`.
Modelled from the spec: `ConfigEntry_Linked::UpdateDefault` (ConfigEntry.h is missing)
refreshes the default text (spec 4.1); the entry holds nothing but the variable,
so the text is taken from the variable. -/
def UpdateDefaultFuel (vars : Vars) : Nat → Heap → Nat → Option Heap
  | 0, _, _ => none
  | fuel + 1, h, this =>
    match h[this]? with
    | none => none
    | some e =>
      match e.body with
      | Body.linked v => setDefault h this (toString (vars v))
      | Body.scope entries =>
        match updateEntries (UpdateDefaultFuel vars fuel) h entries with
        | none => none
        | some h1 => setDefault h1 this ""

/-- `UpdateDefault()` on the object at `this`. -/
def UpdateDefault (vars : Vars) (h : Heap) (this : Nat) : Option Heap :=
  UpdateDefaultFuel vars h.length h this

/-- The loop `for (auto & x : entries) x.second->Write(os, prefix+"  ");` on the stream. -/
def writeEntries (write : String → Nat → Option String) :
    String → List (String × Nat) → Option String
  | os, [] => some os
  | os, (_, c) :: rest =>
    match write os c with
    | none => none
    | some os1 => writeEntries write os1 rest

/-- The virtual `Write(os, prefix)`; the stream is the text written so far and the result
is the stream afterwards.  The scope case is `ConfigScope::Write`.
Modelled from the spec: `ConfigEntry_Linked::Write` (ConfigEntry.h is missing) emits the
description as a preceding comment when present and then `name = <current value>`
(spec 4.3). -/
def WriteFuel (vars : Vars) : Nat → Heap → Nat → String → String → Option String
  | 0, _, _, _, _ => none
  | fuel + 1, h, this, os, pre =>
    match h[this]? with
    | none => none
    | some e =>
      let os1 := if e.desc.length ≠ 0 then os ++ pre ++ "// " ++ e.desc ++ "\n" else os
      match e.body with
      | Body.linked v => some (os1 ++ pre ++ e.name ++ " = " ++ toString (vars v) ++ "\n")
      | Body.scope entries =>
        let os2 := os1 ++ pre ++ e.name ++ " = \x7b\n"
        match writeEntries (fun o c => WriteFuel vars fuel h c o (pre ++ "  ")) os2 entries with
        | none => none
        | some os3 => some (os3 ++ pre ++ "\x7d\n")

/-- `Write(os, prefix)` on the object at `this`. -/
def Write (vars : Vars) (h : Heap) (this : Nat) (os pre : String) : Option String :=
  WriteFuel vars h.length h this os pre

/-! ## Reachable heaps and the vocabulary of the specification -/

/-- The address holds a `ConfigScope`. -/
def isScope (h : Heap) (a : Nat) : Bool :=
  match h[a]? with
  | none => false
  | some e =>
    match e.body with
    | Body.scope _ => true
    | Body.linked _ => false

/-- A pointer handed to the public constructor: null or the address of a scope. -/
def validOwner (h : Heap) : Option Nat → Bool
  | none => true
  | some p => isScope h p

/-- Heaps that the public operations produce: construction of scopes by the host,
`AddScope`, `LinkVar`, `Clone` and `UpdateDefault` on existing objects. -/
inductive Reach : Heap → Prop
  | empty : Reach []
  | construct (h : Heap) (name desc : String) (scope : Option Nat) :
      Reach h → validOwner h scope = true → Reach (construct h name desc scope).1
  | addScope (h : Heap) (this : Nat) (name desc : String) (h1 : Heap) (c : Nat) :
      Reach h → AddScope h this name desc = some (h1, c) → Reach h1
  | linkVar (h : Heap) (this var : Nat) (name desc : String) (d : Int) (h1 : Heap) (c : Nat) :
      Reach h → LinkVar h this var name desc d = some (h1, c) → Reach h1
  | clone (h : Heap) (this : Nat) (h1 : Heap) (c : Nat) :
      Reach h → Clone h this = some (h1, c) → Reach h1
  | updateDefault (vars : Vars) (h : Heap) (this : Nat) (h1 : Heap) :
      Reach h → UpdateDefault vars h this = some h1 → Reach h1

/-- A single tree: one root scope made by the host with a null owner, grown by
`AddScope` and `LinkVar` only. -/
inductive Built : Heap → Prop
  | root (name desc : String) : Built (construct [] name desc none).1
  | addScope (h : Heap) (this : Nat) (name desc : String) (h1 : Heap) (c : Nat) :
      Built h → AddScope h this name desc = some (h1, c) → Built h1
  | linkVar (h : Heap) (this var : Nat) (name desc : String) (d : Int) (h1 : Heap) (c : Nat) :
      Built h → LinkVar h this var name desc d = some (h1, c) → Built h1

/-- The list `[S, parent S, ..., root]` along the tree: the root is a scope without
owner, and the parent of an entry is the scope whose map stores it. -/
inductive ScopeChain (h : Heap) : Nat → List Nat → Prop
  | root (r : Nat) (e : ConfigEntry) :
      h[r]? = some e → e.scope = none → ScopeChain h r [r]
  | child (p c : Nat) (l : List Nat) (e : ConfigEntry) (ents : List (String × Nat))
      (k : String) :
      ScopeChain h p l → h[p]? = some e → e.body = Body.scope ents → (k, c) ∈ ents →
      ScopeChain h c (c :: l)

/-- The local entry named `n` of the first scope of the list that has one. -/
def nearestEntry (h : Heap) (l : List Nat) (n : String) : Option Nat :=
  l.findSome? (fun t => (GetEntry h t n).join)

/-- Object `b` is a deep copy of object `a`: another cell with equal name, description and
default text, the same alias for a linked entry, and for a scope the same child names
with, under every name, a deep copy of the original child. -/
inductive CopyOf (h : Heap) : Nat → Nat → Prop
  | linked (a b : Nat) (e e1 : ConfigEntry) (v : Nat) :
      h[a]? = some e → h[b]? = some e1 → a ≠ b →
      e1.name = e.name → e1.desc = e.desc → e1.default_val = e.default_val →
      e.body = Body.linked v → e1.body = Body.linked v → CopyOf h a b
  | scope (a b : Nat) (e e1 : ConfigEntry) (ents ents1 : List (String × Nat)) :
      h[a]? = some e → h[b]? = some e1 → a ≠ b →
      e1.name = e.name → e1.desc = e.desc → e1.default_val = e.default_val →
      e.body = Body.scope ents → e1.body = Body.scope ents1 →
      (∀ k, (mapFind ents1 k).isSome = (mapFind ents k).isSome) →
      (∀ k c c1, mapFind ents k = some c → mapFind ents1 k = some c1 → CopyOf h c c1) →
      CopyOf h a b

/-- Object `t` lies in the subtree rooted at `s`. -/
inductive Descends (h : Heap) (s : Nat) : Nat → Prop
  | self : Descends h s s
  | child (t c : Nat) (e : ConfigEntry) (ents : List (String × Nat)) (k : String) :
      Descends h s t → h[t]? = some e → e.body = Body.scope ents → (k, c) ∈ ents →
      Descends h s c

/-- Heap `h1` keeps every cell of `h` as it is (and may have more cells). -/
def Extends (h h1 : Heap) : Prop :=
  h.length ≤ h1.length ∧ ∀ a, a < h.length → h1[a]? = h[a]?

/-- Concatenation of pieces of text, in order. -/
def concatAll : List String → String
  | [] => ""
  | s :: rest => s ++ concatAll rest

/-- Structural well-formedness of a heap: children are allocated after their scope and lie
in the heap, the map of a scope is strictly ascending in its keys, a key is the name of
the entry stored under it, and an owner is a scope allocated before the entry. -/
structure WF (h : Heap) : Prop where
  child_fwd : ∀ (a : Nat) (e : ConfigEntry) (ents : List (String × Nat)),
    h[a]? = some e → e.body = Body.scope ents →
    ∀ k c, (k, c) ∈ ents → a < c ∧ c < h.length
  sorted : ∀ (a : Nat) (e : ConfigEntry) (ents : List (String × Nat)),
    h[a]? = some e → e.body = Body.scope ents →
    ents.Pairwise (fun x y => strLt x.1 y.1 = true)
  key_name : ∀ (a : Nat) (e : ConfigEntry) (ents : List (String × Nat)),
    h[a]? = some e → e.body = Body.scope ents →
    ∀ k c, (k, c) ∈ ents → ∃ ec, h[c]? = some ec ∧ ec.name = k
  owner_back : ∀ (a : Nat) (e : ConfigEntry) (p : Nat),
    h[a]? = some e → e.scope = some p → p < a ∧ isScope h p = true

/-- Every entry stored in a map has the storing scope as its owner. -/
def OwnerInv (h : Heap) : Prop :=
  ∀ (a : Nat) (e : ConfigEntry) (ents : List (String × Nat)),
    h[a]? = some e → e.body = Body.scope ents →
    ∀ k c, (k, c) ∈ ents → ∃ ec, h[c]? = some ec ∧ ec.scope = some a

/-- Children of the cells below `n0` stay below `n0`. -/
def LowClosed (h : Heap) (n0 : Nat) : Prop :=
  ∀ (x : Nat) (e : ConfigEntry) (ents : List (String × Nat)), x < n0 → h[x]? = some e →
    e.body = Body.scope ents → ∀ k c, (k, c) ∈ ents → c < n0

/-- What one call of the virtual `Clone` achieves on a well-formed heap. -/
def CloneOk (h : Heap) (a : Nat) (r : Option (Heap × Nat)) : Prop :=
  ∃ h1, r = some (h1, h.length) ∧ WF h1 ∧ Extends h h1 ∧ h.length < h1.length ∧
    CopyOf h1 a h.length

/-! ## Vocabulary of the statements about `Add` and `Write` -/

/-- The state after `Add` created `obj` under the name `n` in scope `s`, compared with the
state `h` before: the new entry is a cell that did not exist, `GetEntry(n)` returns it,
exactly one pair of the map has the key `n`, the map has as many pairs as before and
every other name resolves as before. -/
def Overwritten (h : Heap) (s : Nat) (n : String) (obj : ConfigEntry) (h1 : Heap) (c : Nat) :
    Prop :=
  h[c]? = none ∧ h1[c]? = some obj ∧ GetEntry h1 s n = some (some c) ∧
  (∀ m, m ≠ n → GetEntry h1 s m = GetEntry h s m) ∧
  ∃ e e1 ents ents1, h[s]? = some e ∧ e.body = Body.scope ents ∧
    h1[s]? = some e1 ∧ e1.body = Body.scope ents1 ∧
    ents1.length = ents.length ∧ (ents1.map Prod.fst).count n = 1

/-- The comment line of an entry with description `d` at indentation `p`. -/
def commentLine (p d : String) : String :=
  if d = "" then "" else p ++ "// " ++ d ++ "\n"

/-- One call that creates a child: `AddScope(name, desc)` or
`LinkVar(var, name, desc, default_val)`. -/
inductive NewEntry where
  | scope (name desc : String)
  | link (var : Nat) (name desc : String) (default_val : Int)
  deriving DecidableEq, Repr

/-- The name under which the call stores the child. -/
def NewEntry.name : NewEntry → String
  | NewEntry.scope name _ => name
  | NewEntry.link _ name _ _ => name

/-- Perform the call on scope `this`. -/
def addEntry (h : Heap) (this : Nat) : NewEntry → Option (Heap × Nat)
  | NewEntry.scope name desc => AddScope h this name desc
  | NewEntry.link var name desc d => LinkVar h this var name desc d

/-- Perform the calls on scope `this`, in the order of the list. -/
def addAll : Heap → Nat → List NewEntry → Option Heap
  | h, _, [] => some h
  | h, this, c :: cs =>
    match addEntry h this c with
    | none => none
    | some (h1, _) => addAll h1 this cs

/-! ## Example heaps -/

/-- The heap of a successful call; the empty heap if the call failed. -/
def heapOf (r : Option (Heap × Nat)) : Heap :=
  match r with
  | some (h, _) => h
  | none => []

/-- A root scope, at address 0. -/
def exRoot : Heap := (construct [] "root" "" none).1

/-- The root with a child scope `c1` (address 1). -/
def exTree1 : Heap := heapOf (AddScope exRoot 0 "c1" "first")

/-- Scope `c2` (address 2) inside `c1`. -/
def exTree2 : Heap := heapOf (AddScope exTree1 1 "c2" "")

/-- Linked entry `y` (address 3) on the root. -/
def exTree3 : Heap := heapOf (LinkVar exTree2 0 0 "y" "" 0)

/-- Linked entry `x` (address 4) on the root. -/
def exTree4 : Heap := heapOf (LinkVar exTree3 0 1 "x" "count" 0)

/-- Linked entry `x` (address 5) on `c2`: three levels, `x` defined on the root and on `c2`,
`y` on the root only. -/
def exTree : Heap := heapOf (LinkVar exTree4 2 2 "x" "" 0)

/-- The root object of `exTree`. -/
def exRootEntry : ConfigEntry :=
  { name := "root", desc := "", default_val := "", scope := none,
    body := Body.scope [("c1", 1), ("x", 4), ("y", 3)] }

/-- The root with child scopes added in the order `b`, `a` (addresses 1 and 2). -/
def exOrder : Heap := heapOf (AddScope (heapOf (AddScope exRoot 0 "b" "")) 0 "a" "")

/-- The heap after `exTree1[0].Clone()`: the clone is at address 2, its child at address 3. -/
def exCloned : Heap := heapOf (Clone exTree1 0)

/-- External variables that all hold 5. -/
def exVars : Vars := fun _ => 5

/-! ## The read-only overload of `LookupEntry` -/

/-- The read-only overload `ConfigScope::LookupEntry(in_name, scan_scopes) const`
(ConfigScope.h lines 84-96), with a recursion budget.  Its body repeats the body of the
mutable overload.  Which overload the call `scope->LookupEntry(in_name)` selects
depends on `emp::Ptr::operator->`, which belongs to the Empirical library: with
`viaConst = false` the parent is asked through the mutable overload (the member `scope`
points to a non-const scope), with `viaConst = true` through the read-only one. -/
def LookupEntryConstFuel (viaConst : Bool) : Nat → Heap → Nat → String → Bool →
    Option (Option Nat)
  | 0, _, _, _, _ => none
  | fuel + 1, h, this, in_name, scan_scopes =>
    match h[this]? with
    | none => none
    | some e =>
      match e.body with
      | Body.linked _ => none
      | Body.scope entries =>
        match mapFind entries in_name with
        | none =>
          match e.scope with
          | none => some none
          | some parent =>
            if !scan_scopes then some none
            else if viaConst then LookupEntryConstFuel viaConst fuel h parent in_name true
            else LookupEntryFuel fuel h parent in_name true
        | some it => some (some it)

/-- The read-only `LookupEntry` on the object at `this`. -/
def LookupEntryConst (viaConst : Bool) (h : Heap) (this : Nat) (in_name : String)
    (scan_scopes : Bool) : Option (Option Nat) :=
  LookupEntryConstFuel viaConst h.length h this in_name scan_scopes

/-- A root `P` (address 0) with the child scope `c` (address 1) and the linked entry `y`
(address 2). -/
def exParent : Heap :=
  heapOf (LinkVar (heapOf (AddScope exRoot 0 "c" "")) 0 0 "y" "" 0)

/-- The heap after `P.Clone()`: the clone is at address 3, its copy of `c` at address 4
and its copy of `y` at address 5. -/
def exParentCloned : Heap := heapOf (Clone exParent 0)

/-! ## `EvalPacking::evaluate` (source/evaluate/static/EvalPacking.hpp) -/

/-- The local variables of the loop of `EvalPacking::evaluate`.  The counters are `size_t`
in the source; each of them grows by at most one per bit read, so none exceeds
`bits.size()` and the machine arithmetic never wraps. -/
structure PackState where
  packed : Nat
  ones_count : Nat
  zeros_count : Nat
  check_step : Nat
  deriving DecidableEq, Repr

/-- The values before the loop: `packed = 0`, `ones_count = 0`, `zeros_count = 0`,
`check_step = 1`. -/
def PackState.init : PackState :=
  { packed := 0, ones_count := 0, zeros_count := 0, check_step := 1 }

/-- One pass through the body of the `for` loop, reading the bit `bits[i]`
(`true` is 1). -/
def stepBit (brick_size packing_size : Nat) (st : PackState) (bit : Bool) : PackState :=
  let st1 : PackState :=
    if st.check_step = 0 ∨ st.check_step = 2 then
      let zeros := if bit = false then st.zeros_count + 1 else st.zeros_count
      if zeros = packing_size then
        { st with zeros_count := 0, check_step := st.check_step + 1 }
      else if bit = true then
        { st with zeros_count := 0, check_step := 0 }
      else
        { st with zeros_count := zeros }
    else if st.check_step = 1 then
      if bit = true then
        if st.ones_count + 1 = brick_size then
          { st with ones_count := 0, check_step := if packing_size = 0 then 3 else 2 }
        else
          { st with ones_count := st.ones_count + 1 }
      else
        { st with ones_count := 0, zeros_count := 1, check_step := 0 }
    else st
  if st1.check_step = 3 then { st1 with packed := st1.packed + 1, check_step := 1 }
  else st1

/-- The `for` loop of `evaluate` over all bits, from the initial values. -/
def packLoop (brick_size packing_size : Nat) (bits : List Bool) : PackState :=
  bits.foldl (stepBit brick_size packing_size) PackState.init

/-- `EvalPacking::evaluate(b_s, p_s, bits)`: zero at once for a bit vector shorter than a
brick, else the value of `packed` after the loop. -/
def evaluate (b_s p_s : Nat) (bits : List Bool) : Nat :=
  if bits.length < b_s then 0 else (packLoop b_s p_s bits).packed

/-- The bit string of `k` repetitions of `brick_size` ones followed by `packing_size`
zeros. -/
def packedBricks (brick_size packing_size : Nat) : Nat → List Bool
  | 0 => []
  | k + 1 =>
    List.replicate brick_size true ++ List.replicate packing_size false
      ++ packedBricks brick_size packing_size k

/-- The part of the bits read so far that the current state accounts for beyond the
finished bricks: the ones of the brick being counted, or a whole brick and the zeros
counted behind it. -/
def PackState.credit (brick_size : Nat) (st : PackState) : Nat :=
  if st.check_step = 1 then st.ones_count
  else if st.check_step = 2 then brick_size + st.zeros_count
  else 0

/-- Invariant of the loop after `i` bits. -/
def PackInv (brick_size packing_size : Nat) (st : PackState) (i : Nat) : Prop :=
  st.check_step ≤ 2 ∧ (st.check_step = 1 → st.zeros_count = 0) ∧
  (st.check_step ≠ 1 → st.ones_count = 0) ∧
  (st.check_step = 2 → st.zeros_count < packing_size) ∧
  st.packed * (brick_size + packing_size) + st.credit brick_size ≤ i

/-! ## Vocabulary for `UpdateDefault`, sharing, destruction and braces -/

/-- What the virtual `UpdateDefault()` leaves in an object: a scope ends with the empty
default text (`default_val = ""`), a linked entry with the text of its variable (the
modelled `ConfigEntry_Linked::UpdateDefault`); nothing else changes. -/
def refreshed (vars : Vars) (e : ConfigEntry) : ConfigEntry :=
  match e.body with
  | Body.scope _ => { e with default_val := "" }
  | Body.linked v => { e with default_val := toString (vars v) }

/-- Heap `h1` is heap `h` with the objects at the addresses in `D` refreshed and every
other cell as it was. -/
def UpdatedFrom (vars : Vars) (h : Heap) (D : Nat → Prop) (h1 : Heap) : Prop :=
  h1.length = h.length ∧
  ∀ x, (D x → h1[x]? = (h[x]?).map (refreshed vars)) ∧ (¬ D x → h1[x]? = h[x]?)

/-- No object is stored in the maps of two different scopes. -/
def NoShare (h : Heap) : Prop :=
  ∀ (a a1 : Nat) (e e1 : ConfigEntry) (ents ents1 : List (String × Nat)) (k k1 : String)
    (c : Nat), h[a]? = some e → e.body = Body.scope ents → h[a1]? = some e1 →
    e1.body = Body.scope ents1 → (k, c) ∈ ents → (k1, c) ∈ ents1 → a = a1

/-- No map of the heap stores the address `c`. -/
def Unref (h : Heap) (c : Nat) : Prop :=
  ∀ (a : Nat) (e : ConfigEntry) (ents : List (String × Nat)) (k : String),
    h[a]? = some e → e.body = Body.scope ents → (k, c) ∉ ents

/-- Children are allocated after their scope and lie in the heap. -/
def Fwd (h : Heap) : Prop :=
  ∀ (a : Nat) (e : ConfigEntry) (ents : List (String × Nat)),
    h[a]? = some e → e.body = Body.scope ents →
    ∀ k c, (k, c) ∈ ents → a < c ∧ c < h.length

/-- What a successful call of the virtual `Clone` keeps: children stay forward, no entry is
shared, the clone is the first new cell and the old cells are as they were. -/
def CloneKeeps (g : Heap) (r : Heap × Nat) : Prop :=
  Fwd r.1 ∧ NoShare r.1 ∧ r.2 = g.length ∧ g.length < r.1.length ∧
  ∀ x, x < g.length → r.1[x]? = g[x]?

/-- A well-formed tree whose objects carry default texts: the root (address 0, text `old`)
with the child scope `c` (address 1, text `stale`) and the linked entry `v` (address 3,
text `0`); `c` has the child scope `d` (address 2, text `deep`). -/
def exStale : Heap :=
  [ { name := "root", desc := "", default_val := "old", scope := none,
      body := Body.scope [("c", 1), ("v", 3)] },
    { name := "c", desc := "", default_val := "stale", scope := some 0,
      body := Body.scope [("d", 2)] },
    { name := "d", desc := "", default_val := "deep", scope := some 1,
      body := Body.scope [] },
    { name := "v", desc := "", default_val := "0", scope := some 0,
      body := Body.linked 0 } ]

/-! ## The destructor `~ConfigScope` -/

/-- The loop `for (auto & x : entries) { x.second.Delete(); }` of the destructor: the
addresses released by the calls, in order.  `del` is `Delete()` on a child. -/
def deleteEntries (del : Nat → Option (List Nat)) : List (String × Nat) → Option (List Nat)
  | [] => some []
  | (_, c) :: rest =>
    match del c with
    | none => none
    | some d1 =>
      match deleteEntries del rest with
      | none => none
      | some d2 => some (d1 ++ d2)

/-- `emp::Ptr::Delete()` on the object at `this`: the (virtual) destructor runs and then the
cell is released.  `~ConfigScope` deletes every pointer stored in `entries`; a linked
entry owns nothing.  The result is the list of the released addresses in the order of
release; an address that occurs twice in it is released twice, and an object that does not
occur in it stays live. -/
def DeleteFuel : Nat → Heap → Nat → Option (List Nat)
  | 0, _, _ => none
  | fuel + 1, h, this =>
    match h[this]? with
    | none => none
    | some e =>
      match e.body with
      | Body.linked _ => some [this]
      | Body.scope entries =>
        match deleteEntries (DeleteFuel fuel h) entries with
        | none => none
        | some d => some (d ++ [this])

/-- Destruction of the object at `this`. -/
def Delete (h : Heap) (this : Nat) : Option (List Nat) :=
  DeleteFuel h.length h this

/-- A root scope on which `AddScope("x", "")` was called twice: the first entry is at
address 1, the second one, which replaced it in the map, at address 2. -/
def exTwice : Heap := heapOf (AddScope (heapOf (AddScope exRoot 0 "x" "")) 0 "x" "")

/-! ## Braces in a text -/

/-- The opening brace. -/
def lbrace : Char := Char.ofNat 123

/-- The closing brace. -/
def rbrace : Char := Char.ofNat 125

/-- The text contains no brace. -/
def braceFree (s : String) : Prop := lbrace ∉ s.data ∧ rbrace ∉ s.data

/-- Read the text from the left with `d` braces open: the number of open braces at the end,
or `none` if a closing brace arrives when no brace is open. -/
def braceRun : Nat → List Char → Option Nat
  | d, [] => some d
  | d, c :: rest =>
    if c = lbrace then braceRun (d + 1) rest
    else if c = rbrace then
      match d with
      | 0 => none
      | d1 + 1 => braceRun d1 rest
    else braceRun d rest

/-- The text reads through with no brace open at the start and at the end, and has `n`
opening braces. -/
def Balanced (l : List Char) (n : Nat) : Prop :=
  braceRun 0 l = some 0 ∧ l.count lbrace = n

/-! ## The key order is a strict total order -/

theorem charsLt_irrefl (a : List Char) : charsLt a a = false := by
  induction a with
  | nil => rfl
  | cons x xs ih => simp [charsLt, ih]

theorem charsLt_trans : ∀ a b c : List Char,
    charsLt a b = true → charsLt b c = true → charsLt a c = true
  | [], [], _, h1, _ => by simp [charsLt] at h1
  | [], _ :: _, [], _, h2 => by simp [charsLt] at h2
  | [], _ :: _, _ :: _, _, _ => by simp [charsLt]
  | _ :: _, [], _, h1, _ => by simp [charsLt] at h1
  | _ :: _, _ :: _, [], _, h2 => by simp [charsLt] at h2
  | x :: xs, y :: ys, z :: zs, h1, h2 => by
    have ih := charsLt_trans xs ys zs
    simp only [charsLt] at h1 h2 ⊢
    split at h1
    · split at h2
      · rw [if_pos (by omega)]
      · split at h2
        · simp at h2
        · rw [if_pos (by omega)]
    · split at h1
      · simp at h1
      · split at h2
        · rw [if_pos (by omega)]
        · split at h2
          · simp at h2
          · rw [if_neg (by omega), if_neg (by omega)]
            exact ih h1 h2

theorem charsLt_total : ∀ a b : List Char,
    charsLt a b = false → charsLt b a = false → a = b
  | [], [], _, _ => rfl
  | [], _ :: _, h1, _ => by simp [charsLt] at h1
  | _ :: _, [], _, h2 => by simp [charsLt] at h2
  | x :: xs, y :: ys, h1, h2 => by
    simp only [charsLt] at h1 h2
    split at h1
    · simp at h1
    · split at h1
      · split at h2
        · simp at h2
        · omega
      · rw [if_neg (by omega), if_neg (by omega)] at h2
        have hxy : x = y := by
          apply Char.ext
          apply UInt32.ext
          have : x.toNat = y.toNat := by omega
          exact this
        rw [hxy, charsLt_total xs ys h1 h2]

theorem strLt_irrefl (a : String) : strLt a a = false := charsLt_irrefl a.data

theorem strLt_trans (a b c : String) (h1 : strLt a b = true) (h2 : strLt b c = true) :
    strLt a c = true := charsLt_trans _ _ _ h1 h2

theorem strLt_total (a b : String) (h1 : strLt a b = false) (h2 : strLt b a = false) :
    a = b := by
  have := charsLt_total a.data b.data h1 h2
  exact String.ext this

theorem strLt_ne (a b : String) (h : strLt a b = true) : a ≠ b := by
  intro hab
  rw [hab, strLt_irrefl] at h
  exact Bool.noConfusion h

/-! ## Facts about the map -/

theorem mapFind_mapSet (l : List (String × Nat)) (k : String) (v : Nat) (q : String) :
    mapFind (mapSet l k v) q = if q = k then some v else mapFind l q := by
  induction l with
  | nil =>
    by_cases hq : q = k
    · simp [mapSet, mapFind, hq]
    · have hq2 : ¬ k = q := fun hk => hq hk.symm
      simp [mapSet, mapFind, hq, hq2]
  | cons x rest ih =>
    obtain ⟨k0, w⟩ := x
    simp only [mapSet]
    by_cases h1 : strLt k k0 = true
    · rw [if_pos h1]
      by_cases hq : q = k
      · simp [mapFind, hq]
      · have hq2 : ¬ k = q := fun hk => hq hk.symm
        simp [mapFind, hq, hq2]
    · rw [if_neg h1]
      by_cases h2 : strLt k0 k = true
      · rw [if_pos h2]
        have hne := strLt_ne k0 k h2
        by_cases hq : q = k
        · subst hq
          simp [mapFind, hne, ih]
        · by_cases hq0 : k0 = q
          · simp [mapFind, hq0, hq]
          · simp [mapFind, hq0, hq, ih]
      · rw [if_neg h2]
        have hk : k = k0 := strLt_total k k0 (by simpa using h1) (by simpa using h2)
        subst hk
        by_cases hq : q = k
        · simp [mapFind, hq]
        · have hq2 : ¬ k = q := fun hk => hq hk.symm
          simp [mapFind, hq, hq2]

theorem mem_mapSet (l : List (String × Nat)) (k : String) (v : Nat) (x : String × Nat)
    (hx : x ∈ mapSet l k v) : x = (k, v) ∨ x ∈ l := by
  induction l with
  | nil => simpa [mapSet] using hx
  | cons y rest ih =>
    obtain ⟨k0, w⟩ := y
    simp only [mapSet] at hx
    split at hx
    · simp only [List.mem_cons] at hx ⊢
      tauto
    · split at hx
      · simp only [List.mem_cons] at hx ⊢
        rcases hx with hx | hx
        · tauto
        · rcases ih hx with h | h <;> tauto
      · rename_i h1 h2
        have hk : k = k0 := strLt_total k k0 (by simpa using h1) (by simpa using h2)
        subst hk
        simp only [List.mem_cons] at hx ⊢
        tauto

theorem mapFind_mem (l : List (String × Nat)) (k : String) (c : Nat)
    (hf : mapFind l k = some c) : (k, c) ∈ l := by
  induction l with
  | nil => simp [mapFind] at hf
  | cons y rest ih =>
    obtain ⟨k0, w⟩ := y
    simp only [mapFind] at hf
    split at hf
    · rename_i hk
      simp only [Option.some.injEq] at hf
      subst hk; subst hf
      exact List.mem_cons_self _ _
    · exact List.mem_cons_of_mem _ (ih hf)

theorem mapFind_none_of_lt (l : List (String × Nat)) (k : String)
    (hl : ∀ x ∈ l, strLt k x.1 = true) : mapFind l k = none := by
  induction l with
  | nil => rfl
  | cons y rest ih =>
    obtain ⟨k0, w⟩ := y
    have h0 := hl (k0, w) (List.mem_cons_self _ _)
    have hne : k0 ≠ k := fun hk => strLt_ne k k0 h0 hk.symm
    simp only [mapFind, if_neg hne]
    exact ih (fun x hx => hl x (List.mem_cons_of_mem _ hx))

theorem mem_mapFind (l : List (String × Nat)) (k : String) (c : Nat)
    (hs : l.Pairwise (fun x y => strLt x.1 y.1 = true)) (hm : (k, c) ∈ l) :
    mapFind l k = some c := by
  induction l with
  | nil => simp at hm
  | cons y rest ih =>
    obtain ⟨k0, w⟩ := y
    rw [List.pairwise_cons] at hs
    rcases List.mem_cons.1 hm with h | h
    · simp only [Prod.mk.injEq] at h
      simp [mapFind, h.1, h.2]
    · have hlt := hs.1 (k, c) h
      have hne : k0 ≠ k := strLt_ne k0 k hlt
      simp only [mapFind, if_neg hne]
      exact ih hs.2 h

theorem sorted_mapSet (l : List (String × Nat)) (k : String) (v : Nat)
    (hs : l.Pairwise (fun x y => strLt x.1 y.1 = true)) :
    (mapSet l k v).Pairwise (fun x y => strLt x.1 y.1 = true) := by
  induction l with
  | nil => simp [mapSet]
  | cons y rest ih =>
    obtain ⟨k0, w⟩ := y
    have hs2 := List.pairwise_cons.1 hs
    simp only [mapSet]
    split
    · rename_i h1
      refine List.pairwise_cons.2 ⟨?_, hs⟩
      intro x hx
      rcases List.mem_cons.1 hx with h | h
      · rw [h]; exact h1
      · exact strLt_trans _ _ _ h1 (hs2.1 x h)
    · split
      · rename_i h1 h2
        refine List.pairwise_cons.2 ⟨?_, ih hs2.2⟩
        intro x hx
        rcases mem_mapSet rest k v x hx with h | h
        · rw [h]; exact h2
        · exact hs2.1 x h
      · exact List.pairwise_cons.2 ⟨hs2.1, hs2.2⟩

theorem mapSet_keys_of_mem (l : List (String × Nat)) (k : String) (v old : Nat)
    (hs : l.Pairwise (fun x y => strLt x.1 y.1 = true)) (hf : mapFind l k = some old) :
    (mapSet l k v).map Prod.fst = l.map Prod.fst := by
  induction l with
  | nil => simp [mapFind] at hf
  | cons y rest ih =>
    obtain ⟨k0, w⟩ := y
    have hs2 := List.pairwise_cons.1 hs
    simp only [mapSet]
    split
    · rename_i h1
      exfalso
      have hm := mapFind_mem _ _ _ hf
      rcases List.mem_cons.1 hm with h | h
      · simp only [Prod.mk.injEq] at h
        rw [h.1, strLt_irrefl] at h1
        exact Bool.noConfusion h1
      · have h2 := strLt_trans _ _ _ h1 (hs2.1 _ h)
        rw [strLt_irrefl] at h2
        exact Bool.noConfusion h2
    · split
      · rename_i h1 h2
        have hne : k0 ≠ k := strLt_ne k0 k h2
        simp only [mapFind, if_neg hne] at hf
        simp [ih hs2.2 hf]
      · simp

theorem mapSet_keys_of_not_mem (l : List (String × Nat)) (k : String) (v : Nat)
    (hf : mapFind l k = none) :
    ((mapSet l k v).map Prod.fst).Perm (k :: l.map Prod.fst) := by
  induction l with
  | nil => simp [mapSet]
  | cons y rest ih =>
    obtain ⟨k0, w⟩ := y
    simp only [mapFind] at hf
    split at hf
    · exact Option.noConfusion hf
    · rename_i hne
      simp only [mapSet]
      split
      · simp
      · split
        · simp only [List.map_cons]
          exact (List.Perm.cons k0 (ih hf)).trans (List.Perm.swap k k0 _)
        · rename_i h1 h2
          exact absurd (strLt_total k k0 (by simpa using h1) (by simpa using h2)).symm hne

/-! ## Cells of the heap -/

theorem lt_of_get {h : Heap} {a : Nat} {e : ConfigEntry} (hg : h[a]? = some e) :
    a < h.length := (List.getElem?_eq_some.1 hg).1

theorem get_set_self {h : Heap} {a : Nat} {e : ConfigEntry} (x : ConfigEntry)
    (hg : h[a]? = some e) : (h.set a x)[a]? = some x := by
  rw [List.getElem?_set, if_pos rfl, if_pos (lt_of_get hg)]

theorem get_set_other {h : Heap} {a b : Nat} (x : ConfigEntry) (hab : b ≠ a) :
    (h.set a x)[b]? = h[b]? := by
  rw [List.getElem?_set, if_neg (fun hh => hab hh.symm)]

theorem get_alloc_old {h : Heap} {a : Nat} (x : ConfigEntry) (ha : a < h.length) :
    (h ++ [x])[a]? = h[a]? := List.getElem?_append_left ha

theorem get_alloc_new (h : Heap) (x : ConfigEntry) : (h ++ [x])[h.length]? = some x :=
  List.getElem?_concat_length h x

theorem get_alloc {h : Heap} {a : Nat} {x e : ConfigEntry} (hg : (h ++ [x])[a]? = some e) :
    (a < h.length ∧ h[a]? = some e) ∨ (a = h.length ∧ e = x) := by
  have hlt := lt_of_get hg
  simp only [List.length_append, List.length_singleton] at hlt
  by_cases ha : a < h.length
  · rw [get_alloc_old x ha] at hg
    exact Or.inl ⟨ha, hg⟩
  · have : a = h.length := by omega
    subst this
    rw [get_alloc_new] at hg
    exact Or.inr ⟨rfl, (Option.some.inj hg).symm⟩

theorem isScope_iff (h : Heap) (a : Nat) :
    isScope h a = true ↔ ∃ e ents, h[a]? = some e ∧ e.body = Body.scope ents := by
  unfold isScope
  constructor
  · intro hs
    split at hs
    · exact Bool.noConfusion hs
    · rename_i e he
      split at hs
      · rename_i ents hb
        exact ⟨e, ents, he, hb⟩
      · exact Bool.noConfusion hs
  · rintro ⟨e, ents, he, hb⟩
    rw [he]
    simp only [hb]

theorem setEntry_some {h h1 : Heap} {self c : Nat} {k : String}
    (hs : setEntry h self k c = some h1) :
    ∃ e ents, h[self]? = some e ∧ e.body = Body.scope ents ∧
      h1 = h.set self { e with body := Body.scope (mapSet ents k c) } := by
  unfold setEntry at hs
  split at hs
  · exact Option.noConfusion hs
  · rename_i e he
    split at hs
    · exact Option.noConfusion hs
    · rename_i ents hb
      exact ⟨e, ents, he, hb, (Option.some.inj hs).symm⟩

theorem setEntry_of_scope {h : Heap} {self : Nat} {e : ConfigEntry}
    {ents : List (String × Nat)} (k : String) (c : Nat)
    (he : h[self]? = some e) (hb : e.body = Body.scope ents) :
    setEntry h self k c
      = some (h.set self { e with body := Body.scope (mapSet ents k c) }) := by
  unfold setEntry
  rw [he]
  simp only [hb]

theorem setDefault_some {h h1 : Heap} {self : Nat} {s : String}
    (hs : setDefault h self s = some h1) :
    ∃ e, h[self]? = some e ∧ h1 = h.set self { e with default_val := s } := by
  unfold setDefault at hs
  split at hs
  · exact Option.noConfusion hs
  · rename_i e he
    exact ⟨e, he, (Option.some.inj hs).symm⟩

/-! ## Preservation of well-formedness by the elementary steps -/

theorem WF_nil : WF [] := by
  constructor <;> intro a e <;> intros <;> simp at *

theorem isScope_alloc {h : Heap} {p : Nat} (x : ConfigEntry) (hp : isScope h p = true) :
    isScope (h ++ [x]) p = true := by
  obtain ⟨e, ents, he, hb⟩ := (isScope_iff h p).1 hp
  exact (isScope_iff _ p).2 ⟨e, ents, by rw [get_alloc_old x (lt_of_get he)]; exact he, hb⟩

theorem WF_alloc {h : Heap} (x : ConfigEntry) (hw : WF h)
    (hb : ∀ ents, x.body = Body.scope ents → ents = [])
    (ho : validOwner h x.scope = true) : WF (h ++ [x]) := by
  constructor
  · intro a e ents he hbe k c hm
    rcases get_alloc he with ⟨_, h1⟩ | ⟨_, h1⟩
    · have := hw.child_fwd a e ents h1 hbe k c hm
      simp only [List.length_append, List.length_singleton]
      omega
    · subst h1
      rw [hb ents hbe] at hm
      simp at hm
  · intro a e ents he hbe
    rcases get_alloc he with ⟨_, h1⟩ | ⟨_, h1⟩
    · exact hw.sorted a e ents h1 hbe
    · subst h1
      rw [hb ents hbe]
      exact List.Pairwise.nil
  · intro a e ents he hbe k c hm
    rcases get_alloc he with ⟨_, h1⟩ | ⟨_, h1⟩
    · obtain ⟨ec, hc, hn⟩ := hw.key_name a e ents h1 hbe k c hm
      exact ⟨ec, by rw [get_alloc_old x (lt_of_get hc)]; exact hc, hn⟩
    · subst h1
      rw [hb ents hbe] at hm
      simp at hm
  · intro a e p he hp
    rcases get_alloc he with ⟨_, h1⟩ | ⟨h0, h1⟩
    · have := hw.owner_back a e p h1 hp
      exact ⟨this.1, isScope_alloc x this.2⟩
    · subst h1
      rw [hp] at ho
      simp only [validOwner] at ho
      obtain ⟨ep, entsp, hep, _⟩ := (isScope_iff h p).1 ho
      have := lt_of_get hep
      exact ⟨by omega, isScope_alloc e ho⟩

theorem WF_set {h : Heap} {self : Nat} {e x : ConfigEntry} (hw : WF h)
    (he : h[self]? = some e) (hn : x.name = e.name) (hsc : x.scope = e.scope)
    (hk : ∀ ents, e.body = Body.scope ents → ∃ ents1, x.body = Body.scope ents1)
    (hx : ∀ ents1, x.body = Body.scope ents1 →
      ents1.Pairwise (fun y z => strLt y.1 z.1 = true) ∧
      ∀ k c, (k, c) ∈ ents1 → self < c ∧ c < h.length ∧ ∃ ec, h[c]? = some ec ∧ ec.name = k) :
    WF (h.set self x) := by
  have hget : ∀ a y, (h.set self x)[a]? = some y →
      (a = self ∧ y = x) ∨ (a ≠ self ∧ h[a]? = some y) := by
    intro a y hy
    by_cases ha : a = self
    · subst ha
      rw [get_set_self x he] at hy
      exact Or.inl ⟨rfl, (Option.some.inj hy).symm⟩
    · rw [get_set_other x ha] at hy
      exact Or.inr ⟨ha, hy⟩
  have hname : ∀ (c : Nat) (ec : ConfigEntry), h[c]? = some ec →
      ∃ ec1 : ConfigEntry, (h.set self x)[c]? = some ec1 ∧
      ec1.name = ec.name := by
    intro c ec hc
    by_cases hcs : c = self
    · subst hcs
      rw [he] at hc
      have := Option.some.inj hc
      subst this
      exact ⟨x, get_set_self x he, hn⟩
    · exact ⟨ec, by rw [get_set_other x hcs]; exact hc, rfl⟩
  have hscope : ∀ p, isScope h p = true → isScope (h.set self x) p = true := by
    intro p hp
    obtain ⟨ep, entsp, hep, hbp⟩ := (isScope_iff h p).1 hp
    by_cases hps : p = self
    · subst hps
      rw [he] at hep
      have := Option.some.inj hep
      subst this
      obtain ⟨ents1, h1⟩ := hk entsp hbp
      exact (isScope_iff _ p).2 ⟨x, ents1, get_set_self x he, h1⟩
    · exact (isScope_iff _ p).2 ⟨ep, entsp, by rw [get_set_other x hps]; exact hep, hbp⟩
  constructor
  · intro a y ents hy hby k c hm
    rw [List.length_set]
    rcases hget a y hy with ⟨h1, h2⟩ | ⟨_, h2⟩
    · subst h1; subst h2
      have := (hx ents hby).2 k c hm
      exact ⟨this.1, this.2.1⟩
    · exact hw.child_fwd a y ents h2 hby k c hm
  · intro a y ents hy hby
    rcases hget a y hy with ⟨h1, h2⟩ | ⟨_, h2⟩
    · subst h2
      exact (hx ents hby).1
    · exact hw.sorted a y ents h2 hby
  · intro a y ents hy hby k c hm
    rcases hget a y hy with ⟨h1, h2⟩ | ⟨_, h2⟩
    · subst h2
      obtain ⟨_, _, ec, hc, hcn⟩ := (hx ents hby).2 k c hm
      obtain ⟨ec1, h3, h4⟩ := hname c ec hc
      exact ⟨ec1, h3, h4.trans hcn⟩
    · obtain ⟨ec, hc, hcn⟩ := hw.key_name a y ents h2 hby k c hm
      obtain ⟨ec1, h3, h4⟩ := hname c ec hc
      exact ⟨ec1, h3, h4.trans hcn⟩
  · intro a y p hy hp
    rcases hget a y hy with ⟨h1, h2⟩ | ⟨_, h2⟩
    · subst h1; subst h2
      rw [hsc] at hp
      have := hw.owner_back a e p he hp
      exact ⟨this.1, hscope p this.2⟩
    · have := hw.owner_back a y p h2 hp
      exact ⟨this.1, hscope p this.2⟩

theorem WF_setEntry {h h1 : Heap} {self c : Nat} {k : String} (hw : WF h)
    (hs : setEntry h self k c = some h1) (hlt : self < c)
    (hc : ∃ ec, h[c]? = some ec ∧ ec.name = k) : WF h1 := by
  obtain ⟨e, ents, he, hb, h1eq⟩ := setEntry_some hs
  subst h1eq
  refine WF_set hw he rfl rfl (fun _ _ => ⟨_, rfl⟩) ?_
  intro ents1 h1
  simp only [Body.scope.injEq] at h1
  subst h1
  refine ⟨sorted_mapSet ents k c (hw.sorted self e ents he hb), ?_⟩
  intro k1 c1 hm
  rcases mem_mapSet ents k c (k1, c1) hm with h2 | h2
  · simp only [Prod.mk.injEq] at h2
    obtain ⟨ec, hec, hecn⟩ := hc
    rw [h2.1, h2.2]
    exact ⟨hlt, lt_of_get hec, ec, hec, hecn⟩
  · have h3 := hw.child_fwd self e ents he hb k1 c1 h2
    exact ⟨h3.1, h3.2, hw.key_name self e ents he hb k1 c1 h2⟩

theorem WF_setDefault {h h1 : Heap} {self : Nat} {s : String} (hw : WF h)
    (hs : setDefault h self s = some h1) : WF h1 := by
  obtain ⟨e, he, h1eq⟩ := setDefault_some hs
  subst h1eq
  refine WF_set hw he rfl rfl (fun ents hb => ⟨ents, hb⟩) ?_
  intro ents1 h1
  refine ⟨hw.sorted self e ents1 he h1, ?_⟩
  intro k c hm
  have h3 := hw.child_fwd self e ents1 he h1 k c hm
  exact ⟨h3.1, h3.2, hw.key_name self e ents1 he h1 k c hm⟩

/-! ## `Add` -/

theorem Add_some {h h1 : Heap} {this c : Nat} {name : String} {obj : ConfigEntry}
    (ha : Add h this name obj = some (h1, c)) :
    c = h.length ∧ isScope h this = true ∧ setEntry (h ++ [obj]) this name h.length = some h1 := by
  unfold Add at ha
  split at ha
  · exact Option.noConfusion ha
  · rename_i e he
    split at ha
    · exact Option.noConfusion ha
    · rename_i ents hb
      simp only at ha
      split at ha
      · exact Option.noConfusion ha
      · rename_i h2 hs
        simp only [Option.some.injEq, Prod.mk.injEq] at ha
        refine ⟨ha.2.symm, (isScope_iff h this).2 ⟨e, ents, he, hb⟩, ?_⟩
        rw [hs, ha.1]

theorem Add_of_scope {h : Heap} {this : Nat} {e : ConfigEntry} {ents : List (String × Nat)}
    (name : String) (obj : ConfigEntry) (he : h[this]? = some e) (hb : e.body = Body.scope ents) :
    Add h this name obj
      = some ((h ++ [obj]).set this { e with body := Body.scope (mapSet ents name h.length) },
          h.length) := by
  have he1 : (h ++ [obj])[this]? = some e := by
    rw [get_alloc_old obj (lt_of_get he)]; exact he
  unfold Add
  rw [he]
  simp only [hb]
  rw [setEntry_of_scope name h.length he1 hb]

theorem WF_Add {h h1 : Heap} {this c : Nat} {name : String} {obj : ConfigEntry} (hw : WF h)
    (ha : Add h this name obj = some (h1, c)) (hn : obj.name = name)
    (hb : ∀ ents, obj.body = Body.scope ents → ents = [])
    (ho : obj.scope = some this) : WF h1 := by
  obtain ⟨_, hsc, hs⟩ := Add_some ha
  have hw1 : WF (h ++ [obj]) := WF_alloc obj hw hb (by rw [ho]; exact hsc)
  obtain ⟨e, ents, he, _⟩ := (isScope_iff h this).1 hsc
  exact WF_setEntry hw1 hs (lt_of_get he) ⟨obj, get_alloc_new h obj, hn⟩

/-! ## Heap extension -/

theorem Extends.refl (h : Heap) : Extends h h := ⟨Nat.le_refl _, fun _ _ => rfl⟩

theorem Extends.trans {h1 h2 h3 : Heap} (h12 : Extends h1 h2) (h23 : Extends h2 h3) :
    Extends h1 h3 :=
  ⟨Nat.le_trans h12.1 h23.1, fun a ha =>
    (h23.2 a (Nat.lt_of_lt_of_le ha h12.1)).trans (h12.2 a ha)⟩

theorem Extends_alloc (h : Heap) (x : ConfigEntry) : Extends h (h ++ [x]) :=
  ⟨by simp, fun _ ha => get_alloc_old x ha⟩

theorem LowClosed_length {h : Heap} (hw : WF h) : LowClosed h h.length :=
  fun x e ents _ he hb k c hm => (hw.child_fwd x e ents he hb k c hm).2

theorem LowClosed_of_agree {h h1 : Heap} {n0 : Nat} (hl : LowClosed h n0)
    (hag : ∀ x, x < n0 → h1[x]? = h[x]?) : LowClosed h1 n0 := by
  intro x e ents hx he hb k c hm
  rw [hag x hx] at he
  exact hl x e ents hx he hb k c hm

/-! ## Deep copies -/

theorem CopyOf_name {h : Heap} {a b : Nat} (hc : CopyOf h a b) :
    ∃ e e1, h[a]? = some e ∧ h[b]? = some e1 ∧ e1.name = e.name := by
  cases hc with
  | linked _ _ e e1 v h1 h2 _ h4 => exact ⟨e, e1, h1, h2, h4⟩
  | scope _ _ e e1 ents ents1 h1 h2 _ h4 => exact ⟨e, e1, h1, h2, h4⟩

theorem CopyOf_frame {h h1 : Heap} {n0 self : Nat} (hl : LowClosed h n0) (hw : WF h)
    (hag : ∀ x, x ≠ self → x < h.length → h1[x]? = h[x]?) (hn : n0 ≤ self)
    {a b : Nat} (hc : CopyOf h a b) : a < n0 → self < b → CopyOf h1 a b := by
  induction hc with
  | linked a b e e1 v h1a h1b hne hnm hd hdv hb hb1 =>
    intro ha hb2
    refine CopyOf.linked a b e e1 v ?_ ?_ hne hnm hd hdv hb hb1
    · rw [hag a (by omega) (lt_of_get h1a)]; exact h1a
    · rw [hag b (by omega) (lt_of_get h1b)]; exact h1b
  | scope a b e e1 ents ents1 h1a h1b hne hnm hd hdv hb hb1 hkeys _ ih =>
    intro ha hb2
    refine CopyOf.scope a b e e1 ents ents1 ?_ ?_ hne hnm hd hdv hb hb1 hkeys ?_
    · rw [hag a (by omega) (lt_of_get h1a)]; exact h1a
    · rw [hag b (by omega) (lt_of_get h1b)]; exact h1b
    · intro k c c1 hf hf1
      have hc0 := hl a e ents ha h1a hb k c (mapFind_mem _ _ _ hf)
      have hc1 := hw.child_fwd b e1 ents1 h1b hb1 k c1 (mapFind_mem _ _ _ hf1)
      exact ih k c c1 hf hf1 hc0 (by omega)

/-! ## `Clone` -/

theorem cloneEntries_spec (cl : Heap → Nat → Option (Heap × Nat)) (n0 self : Nat)
    (ok : Nat → Prop) (es : ConfigEntry)
    (hcl : ∀ h c, WF h → LowClosed h n0 → n0 ≤ h.length → c < n0 → ok c →
      CloneOk h c (cl h c)) :
    ∀ (rest : List (String × Nat)) (h : Heap) (done : List (String × Nat)),
      WF h → LowClosed h n0 → n0 ≤ self → self < h.length →
      h[self]? = some { es with body := Body.scope done } →
      (∀ k c, (k, c) ∈ rest → c < n0 ∧ ok c ∧ ∃ ec, h[c]? = some ec ∧ ec.name = k) →
      rest.Pairwise (fun x y => strLt x.1 y.1 = true) →
      ∃ hf final, cloneEntries cl h self rest = some hf ∧ WF hf ∧
        (∀ x, x ≠ self → x < h.length → hf[x]? = h[x]?) ∧ h.length ≤ hf.length ∧
        hf[self]? = some { es with body := Body.scope final } ∧
        (∀ q, mapFind rest q = none → mapFind final q = mapFind done q) ∧
        (∀ q c, mapFind rest q = some c → ∃ c1, mapFind final q = some c1 ∧ CopyOf hf c c1) := by
  intro rest
  induction rest with
  | nil =>
    intro h done hw _ _ _ hs _ _
    refine ⟨h, done, rfl, hw, fun _ _ _ => rfl, Nat.le_refl _, hs, fun _ _ => rfl, ?_⟩
    intro q c hq
    simp [mapFind] at hq
  | cons kc rest ih =>
    obtain ⟨k, c⟩ := kc
    intro h done hw hl hn hself hs hrest hsorted
    obtain ⟨hc0, hcok, ec, hec, hecn⟩ := hrest k c (List.mem_cons_self _ _)
    obtain ⟨h1, hr, hw1, hext, hlen, hcopy⟩ := hcl h c hw hl (by omega) hc0 hcok
    have hs1 : h1[self]? = some { es with body := Body.scope done } := by
      rw [hext.2 self hself]; exact hs
    have hset := setEntry_of_scope k h.length hs1 rfl
    obtain ⟨e0, e1, he0, he1, hname⟩ := CopyOf_name hcopy
    have hec1 : h1[c]? = some ec := by rw [hext.2 c (by omega)]; exact hec
    rw [hec1] at he0
    have he0eq := Option.some.inj he0
    subst he0eq
    have hw2 := WF_setEntry hw1 hset hself ⟨e1, he1, hname.trans hecn⟩
    generalize hh2 : h1.set self
      { ({ es with body := Body.scope done } : ConfigEntry) with
        body := Body.scope (mapSet done k h.length) } = h2 at hset hw2
    have hag2 : ∀ x, x ≠ self → h2[x]? = h1[x]? := by
      intro x hx
      rw [← hh2]
      exact get_set_other _ hx
    have hlen2 : h2.length = h1.length := by rw [← hh2, List.length_set]
    have hs2 : h2[self]? = some { es with body := Body.scope (mapSet done k h.length) } := by
      rw [← hh2]
      exact get_set_self _ hs1
    have hl2 : LowClosed h2 n0 := by
      apply LowClosed_of_agree hl
      intro x hx
      rw [hag2 x (by omega), hext.2 x (by omega)]
    have hsorted2 := List.pairwise_cons.1 hsorted
    have hrest2 : ∀ k1 c1, (k1, c1) ∈ rest →
        c1 < n0 ∧ ok c1 ∧ ∃ ec, h2[c1]? = some ec ∧ ec.name = k1 := by
      intro k1 c1 hm
      obtain ⟨a1, a2, ec1, a3, a4⟩ := hrest k1 c1 (List.mem_cons_of_mem _ hm)
      refine ⟨a1, a2, ec1, ?_, a4⟩
      rw [hag2 c1 (by omega), hext.2 c1 (by omega)]
      exact a3
    obtain ⟨hf, final, hrun, hwf, hagf, hlenf, hsf, hnone, hsome⟩ :=
      ih h2 (mapSet done k h.length) hw2 hl2 hn (by omega) hs2 hrest2 hsorted2.2
    refine ⟨hf, final, ?_, hwf, ?_, by omega, hsf, ?_, ?_⟩
    · simp only [cloneEntries, hr, hset]
      exact hrun
    · intro x hx hxl
      rw [hagf x hx (by omega), hag2 x hx, hext.2 x hxl]
    · intro q hq
      simp only [mapFind] at hq
      split at hq
      · exact Option.noConfusion hq
      · rename_i hkq
        rw [hnone q hq, mapFind_mapSet, if_neg (fun hh => hkq hh.symm)]
    · intro q c2 hq
      simp only [mapFind] at hq
      split at hq
      · rename_i hkq
        subst hkq
        have hcc := Option.some.inj hq
        subst hcc
        have hfresh : mapFind rest k = none :=
          mapFind_none_of_lt rest k (fun x hx => hsorted2.1 x hx)
        refine ⟨h.length, ?_, ?_⟩
        · rw [hnone k hfresh, mapFind_mapSet, if_pos rfl]
        · refine CopyOf_frame (LowClosed_of_agree hl (fun x hx => hext.2 x (by omega))) hw1
            ?_ hn hcopy hc0 hself
          intro x hx hxl
          rw [hagf x hx (by omega), hag2 x hx]
      · exact hsome q c2 hq

theorem CloneFuel_spec : ∀ (fuel : Nat) (n0 : Nat) (h : Heap) (a : Nat),
    WF h → LowClosed h n0 → n0 ≤ h.length → a < n0 → n0 ≤ fuel + a →
    CloneOk h a (CloneFuel fuel h a) := by
  intro fuel
  induction fuel with
  | zero =>
    intro n0 h a _ _ _ ha hf
    omega
  | succ fuel ih =>
    intro n0 h a hw hl hn ha hf
    obtain ⟨e, he⟩ : ∃ e, h[a]? = some e := by
      have : a < h.length := by omega
      exact ⟨h[a], List.getElem?_eq_getElem this⟩
    have hown : validOwner h e.scope = true := by
      cases hsc : e.scope with
      | none => rfl
      | some p => exact (hw.owner_back a e p he hsc).2
    cases hb : e.body with
    | linked v =>
      refine ⟨h ++ [e], ?_, ?_, Extends_alloc h e, by simp, ?_⟩
      · simp only [CloneFuel, he, hb]
      · exact WF_alloc e hw (fun ents h1 => by rw [hb] at h1; exact Body.noConfusion h1) hown
      · refine CopyOf.linked a h.length e e v ?_ (get_alloc_new h e) (by omega) rfl rfl rfl hb hb
        rw [get_alloc_old e (by omega)]; exact he
    | scope ents =>
      let e0 : ConfigEntry := { e with body := Body.scope [] }
      have hwA : WF (h ++ [e0]) :=
        WF_alloc e0 hw (fun ents h1 => (Body.scope.inj h1).symm) hown
      have hextA := Extends_alloc h e0
      have hlA : LowClosed (h ++ [e0]) n0 :=
        LowClosed_of_agree hl (fun x hx => hextA.2 x (by omega))
      have hrest : ∀ k c, (k, c) ∈ ents →
          c < n0 ∧ n0 ≤ fuel + c ∧ ∃ ec, (h ++ [e0])[c]? = some ec ∧ ec.name = k := by
        intro k c hm
        have h1 := hl a e ents ha he hb k c hm
        have h2 := hw.child_fwd a e ents he hb k c hm
        obtain ⟨ec, h3, h4⟩ := hw.key_name a e ents he hb k c hm
        refine ⟨h1, by omega, ec, ?_, h4⟩
        rw [hextA.2 c (by omega)]; exact h3
      obtain ⟨hf1, final, hrun, hwf, hagf, hlenf, hsf, hnone, hsome⟩ :=
        cloneEntries_spec (CloneFuel fuel) n0 h.length (fun c => n0 ≤ fuel + c) e
          (fun h2 c a1 a2 a3 a4 a5 => ih n0 h2 c a1 a2 a3 a4 a5)
          ents (h ++ [e0]) [] hwA hlA hn (by simp) (get_alloc_new h e0) hrest
          (hw.sorted a e ents he hb)
      have hlenA : (h ++ [e0]).length = h.length + 1 := by simp
      have hold : ∀ x, x < h.length → hf1[x]? = h[x]? := by
        intro x hx
        rw [hagf x (by omega) (by omega), hextA.2 x hx]
      refine ⟨hf1, ?_, hwf, ⟨by omega, hold⟩, by omega, ?_⟩
      · simp only [CloneFuel, he, hb]
        have hrun2 : cloneEntries (CloneFuel fuel) (h ++ [e0]) h.length ents = some hf1 := hrun
        rw [hrun2]
      · refine CopyOf.scope a h.length e _ ents final ?_ hsf (by omega) rfl rfl rfl hb rfl ?_ ?_
        · rw [hold a (by omega)]; exact he
        · intro k
          cases hk : mapFind ents k with
          | none => rw [hnone k hk]; rfl
          | some c =>
            obtain ⟨c1, h1, _⟩ := hsome k c hk
            rw [h1]; rfl
        · intro k c c1 hk hk1
          obtain ⟨c2, h1, h2⟩ := hsome k c hk
          rw [h1] at hk1
          have := Option.some.inj hk1
          subst this
          exact h2

theorem Clone_spec {h : Heap} {a : Nat} (hw : WF h) (ha : a < h.length) :
    CloneOk h a (Clone h a) :=
  CloneFuel_spec h.length h.length h a hw (LowClosed_length hw) (Nat.le_refl _) ha (by omega)

theorem Clone_lt {h h1 : Heap} {a c : Nat} (hc : Clone h a = some (h1, c)) : a < h.length := by
  unfold Clone at hc
  cases hl : h.length with
  | zero => rw [hl] at hc; simp [CloneFuel] at hc
  | succ n =>
    rw [hl] at hc
    simp only [CloneFuel] at hc
    split at hc
    · exact Option.noConfusion hc
    · rename_i e he
      have := lt_of_get he
      omega

/-! ## `UpdateDefault` -/

theorem updateEntries_pres (Q : Heap → Prop) (upd : Heap → Nat → Option Heap)
    (hupd : ∀ h a h1, upd h a = some h1 → Q h → Q h1) :
    ∀ (l : List (String × Nat)) (h h1 : Heap), updateEntries upd h l = some h1 → Q h → Q h1 := by
  intro l
  induction l with
  | nil =>
    intro h h1 hr hq
    simp only [updateEntries, Option.some.injEq] at hr
    subst hr
    exact hq
  | cons kc rest ih =>
    obtain ⟨k, c⟩ := kc
    intro h h1 hr hq
    simp only [updateEntries] at hr
    split at hr
    · exact Option.noConfusion hr
    · rename_i h2 h2eq
      exact ih h2 h1 hr (hupd h c h2 h2eq hq)

theorem UpdateDefaultFuel_WF (vars : Vars) : ∀ (fuel : Nat) (h : Heap) (a : Nat) (h1 : Heap),
    UpdateDefaultFuel vars fuel h a = some h1 → WF h → WF h1 := by
  intro fuel
  induction fuel with
  | zero =>
    intro h a h1 hr
    simp [UpdateDefaultFuel] at hr
  | succ fuel ih =>
    intro h a h1 hr hw
    simp only [UpdateDefaultFuel] at hr
    split at hr
    · exact Option.noConfusion hr
    · rename_i e he
      split at hr
      · exact WF_setDefault hw hr
      · rename_i ents hb
        split at hr
        · exact Option.noConfusion hr
        · rename_i h2 h2eq
          exact WF_setDefault (updateEntries_pres WF _ ih ents h h2 h2eq hw) hr

/-! ## Reachable heaps are well-formed -/

theorem Reach.wf {h : Heap} (hr : Reach h) : WF h := by
  induction hr with
  | empty => exact WF_nil
  | construct h name desc scope _ hv ih =>
    exact WF_alloc _ ih (fun ents h1 => (Body.scope.inj h1).symm) hv
  | addScope h this name desc h1 c _ ha ih =>
    exact WF_Add ih ha rfl (fun ents h1 => (Body.scope.inj h1).symm) rfl
  | linkVar h this var name desc d h1 c _ ha ih =>
    exact WF_Add ih ha rfl (fun ents h1 => Body.noConfusion h1) rfl
  | clone h this h1 c _ hc ih =>
    obtain ⟨h2, h2eq, hw2, _⟩ := Clone_spec ih (Clone_lt hc)
    rw [hc] at h2eq
    simp only [Option.some.injEq, Prod.mk.injEq] at h2eq
    rw [h2eq.1]
    exact hw2
  | updateDefault vars h this h1 _ hu ih =>
    exact UpdateDefaultFuel_WF vars _ h this h1 hu ih

theorem Built.reach {h : Heap} (hb : Built h) : Reach h := by
  induction hb with
  | root name desc => exact Reach.construct [] name desc none Reach.empty rfl
  | addScope h this name desc h1 c _ ha ih => exact Reach.addScope h this name desc h1 c ih ha
  | linkVar h this var name desc d h1 c _ ha ih =>
    exact Reach.linkVar h this var name desc d h1 c ih ha

/-! ## The owner invariant on trees grown by `Add` -/

theorem OwnerInv_Add {h h1 : Heap} {this c : Nat} {name : String} {obj : ConfigEntry}
    (ho : OwnerInv h) (ha : Add h this name obj = some (h1, c))
    (hb : ∀ ents, obj.body = Body.scope ents → ents = [])
    (hs : obj.scope = some this) : OwnerInv h1 := by
  obtain ⟨_, hsc, _⟩ := Add_some ha
  obtain ⟨e, ents, he, hbe⟩ := (isScope_iff h this).1 hsc
  rw [Add_of_scope name obj he hbe] at ha
  simp only [Option.some.injEq, Prod.mk.injEq] at ha
  have hthis := lt_of_get he
  have he1 : (h ++ [obj])[this]? = some e := by rw [get_alloc_old obj hthis]; exact he
  have hkeep : ∀ (x : Nat) (ex : ConfigEntry), h[x]? = some ex →
      ∃ ex1 : ConfigEntry, h1[x]? = some ex1 ∧ ex1.scope = ex.scope := by
    intro x ex hx
    rw [← ha.1]
    by_cases hxt : x = this
    · subst hxt
      rw [he] at hx
      have := Option.some.inj hx
      subst this
      exact ⟨_, get_set_self _ he1, rfl⟩
    · refine ⟨ex, ?_, rfl⟩
      rw [get_set_other _ hxt, get_alloc_old obj (lt_of_get hx)]
      exact hx
  have hnew : h1[h.length]? = some obj := by
    rw [← ha.1, get_set_other _ (by omega), get_alloc_new]
  intro a y entsy hy hby k c1 hm
  by_cases hat : a = this
  · subst hat
    rw [← ha.1, get_set_self _ he1] at hy
    have hy2 := Option.some.inj hy
    subst hy2
    simp only [Body.scope.injEq] at hby
    subst hby
    rcases mem_mapSet ents name h.length (k, c1) hm with h2 | h2
    · simp only [Prod.mk.injEq] at h2
      rw [h2.2]
      exact ⟨obj, hnew, hs⟩
    · obtain ⟨ec, hec, hes⟩ := ho a e ents he hbe k c1 h2
      obtain ⟨ex1, h3, h4⟩ := hkeep c1 ec hec
      exact ⟨ex1, h3, h4.trans hes⟩
  · rw [← ha.1, get_set_other _ hat] at hy
    rcases get_alloc hy with ⟨_, h2⟩ | ⟨_, h2⟩
    · obtain ⟨ec, hec, hes⟩ := ho a y entsy h2 hby k c1 hm
      obtain ⟨ex1, h3, h4⟩ := hkeep c1 ec hec
      exact ⟨ex1, h3, h4.trans hes⟩
    · subst h2
      rw [hb entsy hby] at hm
      simp at hm

theorem Built.ownerInv {h : Heap} (hb : Built h) : OwnerInv h := by
  induction hb with
  | root name desc =>
    intro a e ents he hbe k c hm
    simp only [construct, List.nil_append] at he
    cases a with
    | zero =>
      simp only [List.getElem?_cons_zero, Option.some.injEq] at he
      subst he
      simp only [ConfigScope.new, Body.scope.injEq] at hbe
      subst hbe
      simp at hm
    | succ n => simp at he
  | addScope h this name desc h1 c _ ha ih =>
    exact OwnerInv_Add ih ha (fun ents h1 => (Body.scope.inj h1).symm) rfl
  | linkVar h this var name desc d h1 c _ ha ih =>
    exact OwnerInv_Add ih ha (fun ents h1 => Body.noConfusion h1) rfl

/-! ## Lexical lookup -/

theorem GetEntry_of_scope {h : Heap} {s : Nat} {e : ConfigEntry} {ents : List (String × Nat)}
    (n : String) (he : h[s]? = some e) (hb : e.body = Body.scope ents) :
    GetEntry h s n = some (mapFind ents n) := by
  unfold GetEntry
  rw [he]
  simp only [hb]
  cases mapFind ents n <;> rfl

theorem ScopeChain.bound {h : Heap} {s : Nat} {l : List Nat} (hw : WF h)
    (hc : ScopeChain h s l) : s < h.length ∧ l.length ≤ s + 1 := by
  induction hc with
  | root r e he _ => exact ⟨lt_of_get he, by simp⟩
  | child p c l e ents k _ he hb hm ih =>
    have := hw.child_fwd p e ents he hb k c hm
    exact ⟨this.2, by simp only [List.length_cons]; omega⟩

theorem ScopeChain.scopes {h : Heap} {s : Nat} {l : List Nat} (hc : ScopeChain h s l) :
    isScope h s = true → ∀ t ∈ l, isScope h t = true := by
  induction hc with
  | root r e _ _ =>
    intro hs t ht
    rw [List.mem_singleton.1 ht]
    exact hs
  | child p c l e ents k _ he hb _ ih =>
    intro hs t ht
    rcases List.mem_cons.1 ht with h1 | h1
    · rw [h1]; exact hs
    · exact ih ((isScope_iff h p).2 ⟨e, ents, he, hb⟩) t h1

theorem LookupEntryFuel_chain {h : Heap} (ho : OwnerInv h) (n : String) {s : Nat}
    {l : List Nat} (hc : ScopeChain h s l) :
    isScope h s = true → ∀ fuel, l.length ≤ fuel →
      LookupEntryFuel fuel h s n true = some (nearestEntry h l n) := by
  induction hc with
  | root r e he hsc =>
    intro hs fuel hf
    obtain ⟨e1, ents, he1, hb⟩ := (isScope_iff h r).1 hs
    rw [he] at he1
    have := Option.some.inj he1
    subst this
    cases fuel with
    | zero => simp at hf
    | succ f =>
      simp only [LookupEntryFuel, he, hb, hsc, nearestEntry, List.findSome?_cons,
        GetEntry_of_scope n he hb, Option.join, List.findSome?_nil]
      cases mapFind ents n <;> rfl
  | child p c l e ents k _ he hb hm ih =>
    intro hs fuel hf
    obtain ⟨ec, entsc, hec, hbc⟩ := (isScope_iff h c).1 hs
    obtain ⟨ec1, hec1, hown⟩ := ho p e ents he hb k c hm
    rw [hec] at hec1
    have := Option.some.inj hec1
    subst this
    cases fuel with
    | zero => simp at hf
    | succ f =>
      have hrec := ih ((isScope_iff h p).2 ⟨e, ents, he, hb⟩) f
        (by simp only [List.length_cons] at hf; omega)
      simp only [LookupEntryFuel, hec, hbc, hown, nearestEntry, List.findSome?_cons,
        GetEntry_of_scope n hec hbc, Option.join]
      cases hfind : mapFind entsc n with
      | none =>
        simp only [Bool.not_true, Bool.false_eq_true, if_false]
        rw [hrec]
        rfl
      | some it => rfl

theorem nearestEntry_eq_none {h : Heap} {l : List Nat} (n : String)
    (hs : ∀ t ∈ l, isScope h t = true) :
    nearestEntry h l n = none ↔ ∀ t ∈ l, GetEntry h t n = some none := by
  unfold nearestEntry
  rw [List.findSome?_eq_none_iff]
  constructor
  · intro hall t ht
    obtain ⟨e, ents, he, hb⟩ := (isScope_iff h t).1 (hs t ht)
    have h1 := hall t ht
    rw [GetEntry_of_scope n he hb] at h1 ⊢
    have h2 : mapFind ents n = none := h1
    rw [h2]
  · intro hall t ht
    rw [hall t ht]
    rfl

/-- C1: in a tree built with AddScope/LinkVar, for a scope S whose chain to the root along the
tree is `l = [S, parent S, ..., root]`, `LookupEntry(n, true)` returns the local entry named
`n` of the nearest scope of the chain that has one, and it returns null exactly when no
scope of the chain has a local entry named `n`. -/
theorem LookupEntry_nearest_on_chain (h : Heap) (s : Nat) (l : List Nat) (n : String)
    (hb : Built h) (hs : isScope h s = true) (hc : ScopeChain h s l) :
    LookupEntry h s n true = some (nearestEntry h l n) ∧
    (LookupEntry h s n true = some none ↔ ∀ t ∈ l, GetEntry h t n = some none) := by
  have hw := hb.reach.wf
  have hbd := hc.bound hw
  have h1 : LookupEntry h s n true = some (nearestEntry h l n) :=
    LookupEntryFuel_chain hb.ownerInv n hc hs h.length (by omega)
  refine ⟨h1, ?_⟩
  rw [h1, ← nearestEntry_eq_none n (hc.scopes hs)]
  constructor
  · intro h2; exact Option.some.inj h2
  · intro h2; rw [h2]

/-- C2: for every scope (and every heap and address), `LookupEntry(n, scan_scopes=false)`
equals `GetEntry(n)`: the local entry named `n` if the scope has one and null otherwise,
whatever the enclosing scopes define. -/
theorem LookupEntry_noscan_eq_GetEntry (h : Heap) (s : Nat) (n : String) :
    LookupEntry h s n false = GetEntry h s n := by
  unfold LookupEntry GetEntry
  cases hg : h[s]? with
  | none =>
    cases h.length with
    | zero => rfl
    | succ f => simp only [LookupEntryFuel, hg]
  | some e =>
    have hlt := lt_of_get hg
    cases hl : h.length with
    | zero => omega
    | succ f =>
      simp only [LookupEntryFuel, hg]
      cases e.body with
      | linked v => rfl
      | scope ents =>
        simp only
        cases mapFind ents n with
        | some it => rfl
        | none =>
          simp only
          cases e.scope <;> rfl

theorem Descends.ge {h : Heap} {s t : Nat} (hw : WF h) (hd : Descends h s t) : s ≤ t := by
  induction hd with
  | self => exact Nat.le_refl _
  | child t c e ents k _ he hb hm ih =>
    have := hw.child_fwd t e ents he hb k c hm
    omega

theorem Add_frame {h : Heap} {t : Nat} (name : String) (obj : ConfigEntry)
    (ht : isScope h t = true) :
    ∃ h2 c, Add h t name obj = some (h2, c) ∧ ∀ a, a < h.length → a ≠ t → h2[a]? = h[a]? := by
  obtain ⟨e, ents, he, hb⟩ := (isScope_iff h t).1 ht
  refine ⟨_, _, Add_of_scope name obj he hb, ?_⟩
  intro a ha hat
  rw [get_set_other _ hat, get_alloc_old obj ha]

/-- C4: on a reachable heap, after `S1 = S.Clone()`, `AddScope` or `LinkVar` on the clone or
on any scope in the subtree of the clone succeeds and leaves every cell of the heap before
the call to `Clone` (in particular S, its child scopes and their maps) as it was. -/
theorem Clone_then_Add_keeps_original (h : Heap) (s : Nat) (hr : Reach h)
    (hs : isScope h s = true) :
    ∃ h1 s1, Clone h s = some (h1, s1) ∧
      ∀ t, Descends h1 s1 t → isScope h1 t = true →
        (∀ name desc, ∃ h2 c, AddScope h1 t name desc = some (h2, c) ∧
          ∀ a, a < h.length → h2[a]? = h[a]?) ∧
        (∀ var name desc d, ∃ h2 c, LinkVar h1 t var name desc d = some (h2, c) ∧
          ∀ a, a < h.length → h2[a]? = h[a]?) := by
  obtain ⟨e, ents, he, hb⟩ := (isScope_iff h s).1 hs
  obtain ⟨h1, hc, hw1, hext, _, _⟩ := Clone_spec hr.wf (lt_of_get he)
  refine ⟨h1, h.length, hc, ?_⟩
  intro t hd ht
  have hge := hd.ge hw1
  constructor
  · intro name desc
    obtain ⟨h2, c, hadd, hfr⟩ := Add_frame name (ConfigScope.new name desc (some t)) ht
    refine ⟨h2, c, hadd, ?_⟩
    intro a ha
    rw [hfr a (by have := hext.1; omega) (by omega), hext.2 a ha]
  · intro var name desc d
    obtain ⟨h2, c, hadd, hfr⟩ := Add_frame name (ConfigEntry_Linked.new name var desc (some t)) ht
    refine ⟨h2, c, hadd, ?_⟩
    intro a ha
    rw [hfr a (by have := hext.1; omega) (by omega), hext.2 a ha]

/-- C6: on a reachable heap (construction, AddScope, LinkVar, Clone, UpdateDefault), every key
of the map of a scope is the name of the entry stored under it, and an entry that
`GetEntry(n)` returns has the name `n`. -/
theorem key_is_entry_name (h : Heap) (s : Nat) (e : ConfigEntry) (ents : List (String × Nat))
    (hr : Reach h) (he : h[s]? = some e) (hb : e.body = Body.scope ents) :
    (∀ k c, (k, c) ∈ ents → ∃ ec, h[c]? = some ec ∧ ec.name = k) ∧
    (∀ n c, GetEntry h s n = some (some c) → ∃ ec, h[c]? = some ec ∧ ec.name = n) := by
  refine ⟨hr.wf.key_name s e ents he hb, ?_⟩
  intro n c hg
  rw [GetEntry_of_scope n he hb] at hg
  exact hr.wf.key_name s e ents he hb n c (mapFind_mem _ _ _ (Option.some.inj hg))

theorem sorted_keys_nodup (l : List (String × Nat))
    (hs : l.Pairwise (fun x y => strLt x.1 y.1 = true)) : (l.map Prod.fst).Nodup := by
  rw [List.Nodup, List.pairwise_map]
  exact hs.imp (fun hxy => strLt_ne _ _ hxy)

theorem GetEntry_isScope {h : Heap} {s : Nat} {n : String} {r : Option Nat}
    (hg : GetEntry h s n = some r) : isScope h s = true := by
  unfold GetEntry at hg
  split at hg
  · exact Option.noConfusion hg
  · rename_i e he
    split at hg
    · exact Option.noConfusion hg
    · rename_i ents hb
      exact (isScope_iff h s).2 ⟨e, ents, he, hb⟩

theorem Add_overwrite {h : Heap} {s old : Nat} {n : String} (obj : ConfigEntry) (hw : WF h)
    (hold : GetEntry h s n = some (some old)) :
    ∃ h1 c, Add h s n obj = some (h1, c) ∧ Overwritten h s n obj h1 c := by
  have hsc : isScope h s = true := GetEntry_isScope hold
  obtain ⟨e, ents, he, hb⟩ := (isScope_iff h s).1 hsc
  rw [GetEntry_of_scope n he hb] at hold
  have hfind : mapFind ents n = some old := Option.some.inj hold
  have hlt := lt_of_get he
  have he1 : (h ++ [obj])[s]? = some e := by rw [get_alloc_old obj hlt]; exact he
  refine ⟨_, _, Add_of_scope n obj he hb, List.getElem?_length h, ?_, ?_, ?_, ?_⟩
  · rw [get_set_other _ (by omega), get_alloc_new]
  · rw [GetEntry_of_scope n (get_set_self _ he1) rfl, mapFind_mapSet, if_pos rfl]
  · intro m hm
    rw [GetEntry_of_scope m (get_set_self _ he1) rfl, mapFind_mapSet, if_neg hm,
      GetEntry_of_scope m he hb]
  · have hkeys := mapSet_keys_of_mem ents n h.length old (hw.sorted s e ents he hb) hfind
    refine ⟨e, _, ents, _, he, hb, get_set_self _ he1, rfl, ?_, ?_⟩
    · have := congrArg List.length hkeys
      simpa using this
    · rw [hkeys]
      apply List.count_eq_one_of_mem (sorted_keys_nodup ents (hw.sorted s e ents he hb))
      exact List.mem_map.2 ⟨(n, old), mapFind_mem _ _ _ hfind, rfl⟩

/-- C7: on a reachable heap, when scope S already has an entry named `n`, `AddScope(n, ..)`
and `LinkVar(.., n, ..)` succeed and leave S with exactly one entry under `n`, the newly
created one (`GetEntry(n)` returns it), with the same number of entries as before and
with every other name resolving to the entry it resolved to before. -/
theorem Add_existing_name_overwrites (h : Heap) (s old : Nat) (n : String) (hr : Reach h)
    (hold : GetEntry h s n = some (some old)) :
    (∀ desc, ∃ h1 c, AddScope h s n desc = some (h1, c) ∧
      Overwritten h s n (ConfigScope.new n desc (some s)) h1 c) ∧
    (∀ var desc d, ∃ h1 c, LinkVar h s var n desc d = some (h1, c) ∧
      Overwritten h s n (ConfigEntry_Linked.new n var desc (some s)) h1 c) :=
  ⟨fun desc => Add_overwrite (ConfigScope.new n desc (some s)) hr.wf hold,
   fun var desc _ => Add_overwrite (ConfigEntry_Linked.new n var desc (some s)) hr.wf hold⟩

/-! ## `Write` -/

theorem desc_length_ne_zero (d : String) : d.length ≠ 0 ↔ d ≠ "" := by
  constructor
  · intro h1 h2
    rw [h2] at h1
    exact h1 rfl
  · intro h1 h2
    apply h1
    apply String.ext
    exact List.length_eq_zero.1 h2

theorem comment_append (os p d : String) :
    (if d.length ≠ 0 then os ++ p ++ "// " ++ d ++ "\n" else os) = os ++ commentLine p d := by
  unfold commentLine
  by_cases hd : d = ""
  · have : ¬ d.length ≠ 0 := fun h1 => (desc_length_ne_zero d).1 h1 hd
    rw [if_neg this, if_pos hd, String.append_empty]
  · rw [if_pos ((desc_length_ne_zero d).2 hd), if_neg hd]
    simp only [String.append_assoc]

theorem WriteFuel_succ (vars : Vars) (fuel : Nat) (h : Heap) (this : Nat) (os pre : String) :
    WriteFuel vars (fuel + 1) h this os pre =
      match h[this]? with
      | none => none
      | some e =>
        match e.body with
        | Body.linked v =>
          some ((if e.desc.length ≠ 0 then os ++ pre ++ "// " ++ e.desc ++ "\n" else os)
            ++ pre ++ e.name ++ " = " ++ toString (vars v) ++ "\n")
        | Body.scope entries =>
          match writeEntries (fun o c => WriteFuel vars fuel h c o (pre ++ "  "))
              ((if e.desc.length ≠ 0 then os ++ pre ++ "// " ++ e.desc ++ "\n" else os)
                ++ pre ++ e.name ++ " = \x7b\n") entries with
          | none => none
          | some os3 => some (os3 ++ pre ++ "\x7d\n") := rfl

theorem writeEntries_mono (w1 w2 : String → Nat → Option String)
    (hm : ∀ os c r, w1 os c = some r → w2 os c = some r) :
    ∀ (l : List (String × Nat)) (os r : String),
      writeEntries w1 os l = some r → writeEntries w2 os l = some r := by
  intro l
  induction l with
  | nil => intro os r hr; exact hr
  | cons kc rest ih =>
    obtain ⟨k, c⟩ := kc
    intro os r hr
    simp only [writeEntries] at hr ⊢
    split at hr
    · exact Option.noConfusion hr
    · rename_i os1 h1
      rw [hm os c os1 h1]
      exact ih os1 r hr

theorem WriteFuel_mono (vars : Vars) (h : Heap) : ∀ (fuel : Nat) (a : Nat) (os p r : String),
    WriteFuel vars fuel h a os p = some r → WriteFuel vars (fuel + 1) h a os p = some r := by
  intro fuel
  induction fuel with
  | zero =>
    intro a os p r hr
    simp [WriteFuel] at hr
  | succ f ih =>
    intro a os p r hr
    rw [WriteFuel_succ] at hr ⊢
    cases hg : h[a]? with
    | none => rw [hg] at hr; exact Option.noConfusion hr
    | some e =>
      rw [hg] at hr
      simp only at hr ⊢
      cases hb : e.body with
      | linked v => rw [hb] at hr; exact hr
      | scope ents =>
        rw [hb] at hr
        simp only at hr ⊢
        split at hr
        · exact Option.noConfusion hr
        · rename_i os3 h3
          rw [writeEntries_mono _ (fun o c => WriteFuel vars (f + 1) h c o (p ++ "  "))
            (fun os c r hh => ih c os (p ++ "  ") r hh) ents _ os3 h3]
          exact hr

theorem writeEntries_outs (w : String → Nat → Option String) :
    ∀ (l : List (String × Nat)),
      (∀ kc ∈ l, ∃ out, ∀ os, w os kc.2 = some (os ++ out)) →
      ∃ outs, List.Forall₂ (fun kc out => ∀ os, w os kc.2 = some (os ++ out)) l outs ∧
        ∀ os, writeEntries w os l = some (os ++ concatAll outs) := by
  intro l
  induction l with
  | nil =>
    intro _
    refine ⟨[], List.Forall₂.nil, ?_⟩
    intro os
    simp only [writeEntries, concatAll, String.append_empty]
  | cons kc rest ih =>
    intro hall
    obtain ⟨out, hout⟩ := hall kc (List.mem_cons_self _ _)
    obtain ⟨outs, hf, hrest⟩ := ih (fun x hx => hall x (List.mem_cons_of_mem _ hx))
    refine ⟨out :: outs, List.Forall₂.cons hout hf, ?_⟩
    intro os
    obtain ⟨k, c⟩ := kc
    simp only [writeEntries, hout os, hrest, concatAll, String.append_assoc]

theorem WriteFuel_total (vars : Vars) {h : Heap} (hw : WF h) : ∀ (fuel : Nat) (a : Nat),
    a < h.length → h.length ≤ fuel + a → ∀ p, ∃ out, ∀ os,
      WriteFuel vars fuel h a os p = some (os ++ out) := by
  intro fuel
  induction fuel with
  | zero => intro a ha hf; omega
  | succ f ih =>
    intro a ha hf p
    obtain ⟨e, he⟩ : ∃ e, h[a]? = some e := ⟨h[a], List.getElem?_eq_getElem ha⟩
    cases hb : e.body with
    | linked v =>
      refine ⟨commentLine p e.desc ++ p ++ e.name ++ " = " ++ toString (vars v) ++ "\n", ?_⟩
      intro os
      rw [WriteFuel_succ, he]
      simp only [hb]
      rw [comment_append]
      simp only [String.append_assoc]
    | scope ents =>
      have hall : ∀ kc ∈ ents, ∃ out, ∀ os,
          (fun o c => WriteFuel vars f h c o (p ++ "  ")) os kc.2 = some (os ++ out) := by
        intro kc hkc
        have := hw.child_fwd a e ents he hb kc.1 kc.2 hkc
        exact ih kc.2 this.2 (by omega) (p ++ "  ")
      obtain ⟨outs, _, hrun⟩ :=
        writeEntries_outs (fun o c => WriteFuel vars f h c o (p ++ "  ")) ents hall
      refine ⟨commentLine p e.desc ++ p ++ e.name ++ " = \x7b\n" ++ concatAll outs ++ p ++ "\x7d\n", ?_⟩
      intro os
      rw [WriteFuel_succ, he]
      simp only [hb]
      rw [comment_append, hrun]
      simp only [String.append_assoc]

theorem Write_layout_of_wf (vars : Vars) (h : Heap) (s : Nat) (e : ConfigEntry)
    (ents : List (String × Nat)) (os p : String)
    (hw : WF h) (he : h[s]? = some e) (hb : e.body = Body.scope ents) :
    ∃ outs : List String,
      List.Forall₂ (fun kc out => ∀ o, Write vars h kc.2 o (p ++ "  ") = some (o ++ out))
        ents outs ∧
      Write vars h s os p =
        some (os ++ (if e.desc = "" then "" else p ++ "// " ++ e.desc ++ "\n")
          ++ p ++ e.name ++ " = \x7b\n" ++ concatAll outs ++ p ++ "\x7d\n") := by
  have hlt := lt_of_get he
  obtain ⟨f, hf⟩ : ∃ f, h.length = f + 1 := ⟨h.length - 1, by omega⟩
  have hall : ∀ kc ∈ ents, ∃ out, ∀ os,
      (fun o c => WriteFuel vars f h c o (p ++ "  ")) os kc.2 = some (os ++ out) := by
    intro kc hkc
    have := hw.child_fwd s e ents he hb kc.1 kc.2 hkc
    exact WriteFuel_total vars hw f kc.2 this.2 (by omega) (p ++ "  ")
  obtain ⟨outs, hfor, hrun⟩ :=
    writeEntries_outs (fun o c => WriteFuel vars f h c o (p ++ "  ")) ents hall
  refine ⟨outs, ?_, ?_⟩
  · refine hfor.imp ?_
    intro kc out hk o
    unfold Write
    rw [hf]
    exact WriteFuel_mono vars h f kc.2 o (p ++ "  ") _ (hk o)
  · unfold Write
    rw [hf, WriteFuel_succ, he]
    simp only [hb]
    rw [comment_append, hrun]
    simp only [String.append_assoc, commentLine]

/-- C8: on a reachable heap, for a scope with name `n`, description `d` and children
`c1..ck` in iteration order of its map, `Write(os, p)` returns the stream `os` followed by
exactly: the line `p // d` if and only if `d` is not empty, the line `p n = {`, the text
that `ci.Write(.., p + "  ")` appends for each child in order, and the line `p }`. -/
theorem Write_scope_layout (vars : Vars) (h : Heap) (s : Nat) (e : ConfigEntry)
    (ents : List (String × Nat)) (os p : String)
    (hr : Reach h) (he : h[s]? = some e) (hb : e.body = Body.scope ents) :
    ∃ outs : List String,
      List.Forall₂ (fun kc out => ∀ o, Write vars h kc.2 o (p ++ "  ") = some (o ++ out))
        ents outs ∧
      Write vars h s os p =
        some (os ++ (if e.desc = "" then "" else p ++ "// " ++ e.desc ++ "\n")
          ++ p ++ e.name ++ " = \x7b\n" ++ concatAll outs ++ p ++ "\x7d\n") :=
  Write_layout_of_wf vars h s e ents os p hr.wf he hb

theorem addEntry_spec {h : Heap} {s : Nat} {e : ConfigEntry} {ents : List (String × Nat)}
    (c : NewEntry) (hr : Reach h) (he : h[s]? = some e) (hb : e.body = Body.scope ents) :
    ∃ h1, addEntry h s c = some (h1, h.length) ∧ Reach h1 ∧
      h1[s]? = some { e with body := Body.scope (mapSet ents c.name h.length) } := by
  cases c with
  | scope name desc =>
    have hadd := Add_of_scope name (ConfigScope.new name desc (some s)) he hb
    refine ⟨_, hadd, Reach.addScope h s name desc _ _ hr hadd, ?_⟩
    exact get_set_self _ (by rw [get_alloc_old _ (lt_of_get he)]; exact he)
  | link var name desc d =>
    have hadd := Add_of_scope name (ConfigEntry_Linked.new name var desc (some s)) he hb
    refine ⟨_, hadd, Reach.linkVar h s var name desc d _ _ hr hadd, ?_⟩
    exact get_set_self _ (by rw [get_alloc_old _ (lt_of_get he)]; exact he)

theorem addAll_spec (s : Nat) : ∀ (cmds : List NewEntry) (h : Heap) (e : ConfigEntry)
    (ents : List (String × Nat)), Reach h → h[s]? = some e → e.body = Body.scope ents →
    (cmds.map NewEntry.name).Nodup → (∀ c ∈ cmds, mapFind ents c.name = none) →
    ∃ h1 ents1, addAll h s cmds = some h1 ∧ Reach h1 ∧
      h1[s]? = some { e with body := Body.scope ents1 } ∧
      (ents1.map Prod.fst).Perm (ents.map Prod.fst ++ cmds.map NewEntry.name) := by
  intro cmds
  induction cmds with
  | nil =>
    intro h e ents hr he hb _ _
    refine ⟨h, ents, rfl, hr, ?_, by simp⟩
    rw [he, ← hb]
  | cons c cs ih =>
    intro h e ents hr he hb hnd hfresh
    obtain ⟨h1, hadd, hr1, hs1⟩ := addEntry_spec c hr he hb
    rw [List.map_cons, List.nodup_cons] at hnd
    have hfresh1 : ∀ c1 ∈ cs, mapFind (mapSet ents c.name h.length) c1.name = none := by
      intro c1 hc1
      have hne : c1.name ≠ c.name := by
        intro heq
        exact hnd.1 (heq ▸ List.mem_map.2 ⟨c1, hc1, rfl⟩)
      rw [mapFind_mapSet, if_neg hne]
      exact hfresh c1 (List.mem_cons_of_mem _ hc1)
    obtain ⟨h2, ents2, hrun, hr2, hs2, hperm⟩ := ih h1 _ _ hr1 hs1 rfl hnd.2 hfresh1
    refine ⟨h2, ents2, ?_, hr2, hs2, ?_⟩
    · simp only [addAll, hadd]
      exact hrun
    · have hk := mapSet_keys_of_not_mem ents c.name h.length
        (hfresh c (List.mem_cons_self _ _))
      refine hperm.trans ?_
      refine (List.Perm.append_right _ hk).trans ?_
      simp only [List.map_cons, List.cons_append]
      exact List.perm_middle.symm

/-- C9 as amended: on a reachable heap, when children with distinct names are added in any
order to a scope that has no entries yet, the calls succeed, the map of the scope holds
exactly the added names, every name being the name of the entry stored under it, and
`Write` emits the text of the children in strictly ascending order of their names (the
iteration order of the map), between the opening line and the closing line. -/
theorem Write_children_ascending (vars : Vars) (h : Heap) (s : Nat) (e : ConfigEntry)
    (cmds : List NewEntry) (os p : String)
    (hr : Reach h) (he : h[s]? = some e) (hb : e.body = Body.scope [])
    (hd : (cmds.map NewEntry.name).Nodup) :
    ∃ h1 ents outs, addAll h s cmds = some h1 ∧
      h1[s]? = some { e with body := Body.scope ents } ∧
      (ents.map Prod.fst).Perm (cmds.map NewEntry.name) ∧
      (ents.map Prod.fst).Pairwise (fun a b => strLt a b = true) ∧
      (∀ kc ∈ ents, ∃ ec, h1[kc.2]? = some ec ∧ ec.name = kc.1) ∧
      List.Forall₂ (fun kc out => ∀ o, Write vars h1 kc.2 o (p ++ "  ") = some (o ++ out))
        ents outs ∧
      Write vars h1 s os p =
        some (os ++ (if e.desc = "" then "" else p ++ "// " ++ e.desc ++ "\n")
          ++ p ++ e.name ++ " = \x7b\n" ++ concatAll outs ++ p ++ "\x7d\n") := by
  obtain ⟨h1, ents, hrun, hr1, hs1, hperm⟩ :=
    addAll_spec s cmds h e [] hr he hb hd (fun _ _ => rfl)
  obtain ⟨outs, hfor, hwrite⟩ := Write_layout_of_wf vars h1 s _ ents os p hr1.wf hs1 rfl
  refine ⟨h1, ents, outs, hrun, hs1, by simpa using hperm, ?_, ?_, hfor, hwrite⟩
  · rw [List.pairwise_map]
    exact hr1.wf.sorted s _ ents hs1 rfl
  · intro kc hkc
    exact hr1.wf.key_name s _ ents hs1 rfl kc.1 kc.2 hkc

/-- `LinkVar` does not use its argument `default_val`: any two default values give the
same heap and the same entry. -/
theorem LinkVar_ignores_default (h : Heap) (this var : Nat) (name desc : String)
    (d1 d2 : Int) :
    LinkVar h this var name desc d1 = LinkVar h this var name desc d2 := rfl

/-! ## The example tree, and the claims on concrete heaps -/

theorem exTree_built : Built exTree :=
  Built.linkVar exTree4 2 2 "x" "" 0 exTree 5
    (Built.linkVar exTree3 0 1 "x" "count" 0 exTree4 4
      (Built.linkVar exTree2 0 0 "y" "" 0 exTree3 3
        (Built.addScope exTree1 1 "c2" "" exTree2 2
          (Built.addScope exRoot 0 "c1" "first" exTree1 1 (Built.root "root" "") (by decide))
          (by decide))
        (by decide))
      (by decide))
    (by decide)

theorem exTree_chain : ScopeChain exTree 2 [2, 1, 0] :=
  ScopeChain.child 1 2 [1, 0]
    { name := "c1", desc := "first", default_val := "", scope := some 0,
      body := Body.scope [("c2", 2)] } [("c2", 2)] "c2"
    (ScopeChain.child 0 1 [0] exRootEntry [("c1", 1), ("x", 4), ("y", 3)] "c1"
      (ScopeChain.root 0 exRootEntry (by decide) (by decide))
      (by decide) (by decide) (by decide))
    (by decide) (by decide) (by decide)

/-- Witness for C1: from `c2` (address 2) of the example tree the chain is `c2, c1, root`. -/
theorem LookupEntry_nearest_on_chain_witness :
    Built exTree ∧ isScope exTree 2 = true ∧ ScopeChain exTree 2 [2, 1, 0] ∧
    (LookupEntry exTree 2 "y" true = some (nearestEntry exTree [2, 1, 0] "y") ∧
     (LookupEntry exTree 2 "y" true = some none ↔
        ∀ t ∈ [2, 1, 0], GetEntry exTree t "y" = some none)) :=
  ⟨exTree_built, by decide, exTree_chain,
   LookupEntry_nearest_on_chain exTree 2 [2, 1, 0] "y" exTree_built (by decide) exTree_chain⟩

/-- Witness for C4: cloning the root of the example tree, which has the nested scopes
`c1` and `c2`. -/
theorem Clone_then_Add_keeps_original_witness :
    Reach exTree ∧ isScope exTree 0 = true ∧
    ∃ h1 s1, Clone exTree 0 = some (h1, s1) ∧
      ∀ t, Descends h1 s1 t → isScope h1 t = true →
        (∀ name desc, ∃ h2 c, AddScope h1 t name desc = some (h2, c) ∧
          ∀ a, a < exTree.length → h2[a]? = exTree[a]?) ∧
        (∀ var name desc d, ∃ h2 c, LinkVar h1 t var name desc d = some (h2, c) ∧
          ∀ a, a < exTree.length → h2[a]? = exTree[a]?) :=
  ⟨exTree_built.reach, by decide,
   Clone_then_Add_keeps_original exTree 0 exTree_built.reach (by decide)⟩

/-- C5, evaluated: the root (address 0) of `exTree1` has the child scope `c1` (address 1,
owner 0).  `Clone()` of the root makes the clone at address 2, and the entry stored under
`c1` in the map of the clone is the object at address 3, whose owner is still address 0,
the original root, and not address 2, the scope that stores it. -/
theorem Clone_child_owner_is_original :
    Clone exTree1 0 = some (exCloned, 2) ∧
    GetEntry exCloned 2 "c1" = some (some 3) ∧
    exCloned[3]?.map ConfigEntry.scope = some (some 0) ∧
    exCloned[3]?.map ConfigEntry.scope ≠ some (some 2) ∧
    Reach exCloned := by
  refine ⟨by decide, by decide, by decide, by decide, ?_⟩
  exact Reach.clone exTree1 0 exCloned 2
    (Reach.addScope exRoot 0 "c1" "first" exTree1 1
      (Reach.construct [] "root" "" none Reach.empty rfl) (by decide))
    (by decide)

/-- Witness for C6: the root of the example tree. -/
theorem key_is_entry_name_witness :
    Reach exTree ∧ exTree[0]? = some exRootEntry ∧
    exRootEntry.body = Body.scope [("c1", 1), ("x", 4), ("y", 3)] ∧
    ((∀ k c, (k, c) ∈ [("c1", 1), ("x", 4), ("y", 3)] →
        ∃ ec, exTree[c]? = some ec ∧ ec.name = k) ∧
     (∀ n c, GetEntry exTree 0 n = some (some c) → ∃ ec, exTree[c]? = some ec ∧ ec.name = n)) :=
  ⟨exTree_built.reach, by decide, by decide,
   key_is_entry_name exTree 0 exRootEntry [("c1", 1), ("x", 4), ("y", 3)]
     exTree_built.reach (by decide) (by decide)⟩

/-- Witness for C7: the root of the example tree already has the entry `x` (address 4). -/
theorem Add_existing_name_overwrites_witness :
    Reach exTree ∧ GetEntry exTree 0 "x" = some (some 4) ∧
    ((∀ desc, ∃ h1 c, AddScope exTree 0 "x" desc = some (h1, c) ∧
        Overwritten exTree 0 "x" (ConfigScope.new "x" desc (some 0)) h1 c) ∧
     (∀ var desc d, ∃ h1 c, LinkVar exTree 0 var "x" desc d = some (h1, c) ∧
        Overwritten exTree 0 "x" (ConfigEntry_Linked.new "x" var desc (some 0)) h1 c)) :=
  ⟨exTree_built.reach, by decide,
   Add_existing_name_overwrites exTree 0 4 "x" exTree_built.reach (by decide)⟩

/-- Witness for C8: writing the root of the example tree. -/
theorem Write_scope_layout_witness :
    Reach exTree ∧ exTree[0]? = some exRootEntry ∧
    exRootEntry.body = Body.scope [("c1", 1), ("x", 4), ("y", 3)] ∧
    ∃ outs : List String,
      List.Forall₂ (fun kc out => ∀ o, Write exVars exTree kc.2 o ("" ++ "  ") = some (o ++ out))
        [("c1", 1), ("x", 4), ("y", 3)] outs ∧
      Write exVars exTree 0 "" "" =
        some ("" ++ (if exRootEntry.desc = "" then "" else "" ++ "// " ++ exRootEntry.desc ++ "\n")
          ++ "" ++ exRootEntry.name ++ " = \x7b\n" ++ concatAll outs ++ "" ++ "\x7d\n") :=
  ⟨exTree_built.reach, by decide, by decide,
   Write_scope_layout exVars exTree 0 exRootEntry [("c1", 1), ("x", 4), ("y", 3)] "" ""
     exTree_built.reach (by decide) (by decide)⟩

/-- C9 as stated fails: the children of the root of `exOrder` were added in the order `b`
(address 1), `a` (address 2), and `Write` emits the text of `a` before the text of `b`. -/
theorem Write_not_in_insertion_order :
    addAll exRoot 0 [NewEntry.scope "b" "", NewEntry.scope "a" ""] = some exOrder ∧
    Write exVars exOrder 1 "" "  " = some "  b = \x7b\n  \x7d\n" ∧
    Write exVars exOrder 2 "" "  " = some "  a = \x7b\n  \x7d\n" ∧
    Write exVars exOrder 0 "" "" =
      some ("root = \x7b\n" ++ "  a = \x7b\n  \x7d\n" ++ "  b = \x7b\n  \x7d\n" ++ "\x7d\n") ∧
    Write exVars exOrder 0 "" "" ≠
      some ("root = \x7b\n" ++ "  b = \x7b\n  \x7d\n" ++ "  a = \x7b\n  \x7d\n" ++ "\x7d\n") := by
  decide

/-- Witness for C9 as amended: adding `b` and then `a` to the empty root. -/
theorem Write_children_ascending_witness :
    Reach exRoot ∧ exRoot[0]? = some (ConfigScope.new "root" "" none) ∧
    (ConfigScope.new "root" "" none).body = Body.scope [] ∧
    ([NewEntry.scope "b" "", NewEntry.scope "a" ""].map NewEntry.name).Nodup ∧
    ∃ h1 ents outs,
      addAll exRoot 0 [NewEntry.scope "b" "", NewEntry.scope "a" ""] = some h1 ∧
      h1[0]? = some { ConfigScope.new "root" "" none with body := Body.scope ents } ∧
      (ents.map Prod.fst).Perm ([NewEntry.scope "b" "", NewEntry.scope "a" ""].map NewEntry.name) ∧
      (ents.map Prod.fst).Pairwise (fun a b => strLt a b = true) ∧
      (∀ kc ∈ ents, ∃ ec, h1[kc.2]? = some ec ∧ ec.name = kc.1) ∧
      List.Forall₂ (fun kc out => ∀ o, Write exVars h1 kc.2 o ("" ++ "  ") = some (o ++ out))
        ents outs ∧
      Write exVars h1 0 "" "" =
        some ("" ++ (if (ConfigScope.new "root" "" none).desc = "" then ""
            else "" ++ "// " ++ (ConfigScope.new "root" "" none).desc ++ "\n")
          ++ "" ++ (ConfigScope.new "root" "" none).name ++ " = \x7b\n" ++ concatAll outs
          ++ "" ++ "\x7d\n") :=
  ⟨Reach.construct [] "root" "" none Reach.empty rfl, by decide, by decide, by decide,
   Write_children_ascending exVars exRoot 0 (ConfigScope.new "root" "" none)
     [NewEntry.scope "b" "", NewEntry.scope "a" ""] "" ""
     (Reach.construct [] "root" "" none Reach.empty rfl) (by decide) (by decide) (by decide)⟩

/-- C10, evaluated: `LinkVar(var, "x", "count", 7)` on the root, with the variable holding 5.
The new entry (address 1) has the empty default text, while the text of the default value
is `7`; and every other default value gives the very same result. -/
theorem LinkVar_default_text_not_from_default :
    (LinkVar exRoot 0 0 "x" "count" 7).map
        (fun r => r.1[r.2]?.map ConfigEntry.default_val) = some (some "") ∧
    toString (7 : Int) = "7" ∧ toString (exVars 0) = "5" ∧
    ∀ d : Int, LinkVar exRoot 0 0 "x" "count" d = LinkVar exRoot 0 0 "x" "count" 7 :=
  ⟨by decide, by decide, by decide,
   fun d => LinkVar_ignores_default exRoot 0 0 "x" "count" d 7⟩

theorem LookupEntryConstFuel_eq (viaConst : Bool) (h : Heap) (n : String) :
    ∀ (fuel : Nat) (s : Nat) (scan : Bool),
      LookupEntryConstFuel viaConst fuel h s n scan = LookupEntryFuel fuel h s n scan := by
  intro fuel
  induction fuel with
  | zero => intro s scan; rfl
  | succ f ih =>
    intro s scan
    simp only [LookupEntryConstFuel, LookupEntryFuel]
    cases h[s]? with
    | none => rfl
    | some e =>
      simp only
      cases e.body with
      | linked v => rfl
      | scope ents =>
        simp only
        cases mapFind ents n with
        | some it => rfl
        | none =>
          simp only
          cases e.scope with
          | none => rfl
          | some parent =>
            simp only
            cases scan with
            | false => rfl
            | true =>
              cases viaConst with
              | false => rfl
              | true => simpa using ih parent true

/-- C12: the read-only and the mutable overload of `LookupEntry` agree: for every heap,
scope, name and flag `scan_scopes` they return the same entry, or both return null, or
both fail (whichever overload the call on the parent resolves to). -/
theorem LookupEntry_const_eq_mutable (viaConst : Bool) (h : Heap) (s : Nat) (n : String)
    (scan_scopes : Bool) :
    LookupEntryConst viaConst h s n scan_scopes = LookupEntry h s n scan_scopes :=
  LookupEntryConstFuel_eq viaConst h n h.length s scan_scopes

/-- C15, evaluated: `P` (address 0) has the child scope `c` (address 1) and the entry `y`
(address 2) that `c` does not define.  After `P.Clone()` the clone is at address 3 and
stores its copy of `c` at address 4 and its copy of `y` at address 5.  `LookupEntry(y)`
on the copy of `c` returns address 2, the entry of the original `P`, not address 5, the
copy that the clone stores: the copy of `c` still has the original `P` as owner. -/
theorem Clone_lookup_escapes_to_original :
    Clone exParent 0 = some (exParentCloned, 3) ∧
    GetEntry exParentCloned 3 "c" = some (some 4) ∧
    GetEntry exParentCloned 3 "y" = some (some 5) ∧
    GetEntry exParentCloned 0 "y" = some (some 2) ∧
    GetEntry exParentCloned 4 "y" = some none ∧
    LookupEntry exParentCloned 4 "y" true = some (some 2) ∧
    LookupEntry exParentCloned 4 "y" true ≠ some (some 5) ∧
    exParentCloned[4]?.map ConfigEntry.scope = some (some 0) ∧
    Reach exParentCloned := by
  refine ⟨by decide, by decide, by decide, by decide, by decide, by decide, by decide,
    by decide, ?_⟩
  exact Reach.clone exParent 0 exParentCloned 3
    (Reach.linkVar (heapOf (AddScope exRoot 0 "c" "")) 0 0 "y" "" 0 exParent 2
      (Reach.addScope exRoot 0 "c" "" (heapOf (AddScope exRoot 0 "c" "")) 1
        (Reach.construct [] "root" "" none Reach.empty rfl) (by decide))
      (by decide))
    (by decide)

/-! ## `EvalPacking::evaluate` -/

theorem stepBit_zero_false (B p pk o z : Nat) :
    stepBit B p ⟨pk, o, z, 0⟩ false =
      if z + 1 = p then ⟨pk, o, 0, 1⟩ else ⟨pk, o, z + 1, 0⟩ := by
  simp only [stepBit]
  split_ifs <;> simp_all

theorem stepBit_zero_true (B p pk o z : Nat) :
    stepBit B p ⟨pk, o, z, 0⟩ true =
      if z = p then ⟨pk, o, 0, 1⟩ else ⟨pk, o, 0, 0⟩ := by
  simp only [stepBit]
  split_ifs <;> simp_all

theorem stepBit_two_false (B p pk o z : Nat) :
    stepBit B p ⟨pk, o, z, 2⟩ false =
      if z + 1 = p then ⟨pk + 1, o, 0, 1⟩ else ⟨pk, o, z + 1, 2⟩ := by
  simp only [stepBit]
  split_ifs <;> simp_all

theorem stepBit_two_true (B p pk o z : Nat) :
    stepBit B p ⟨pk, o, z, 2⟩ true =
      if z = p then ⟨pk + 1, o, 0, 1⟩ else ⟨pk, o, 0, 0⟩ := by
  simp only [stepBit]
  split_ifs <;> simp_all

theorem stepBit_one_true (B p pk o z : Nat) :
    stepBit B p ⟨pk, o, z, 1⟩ true =
      if o + 1 = B then (if p = 0 then ⟨pk + 1, 0, z, 1⟩ else ⟨pk, 0, z, 2⟩)
      else ⟨pk, o + 1, z, 1⟩ := by
  simp only [stepBit]
  split_ifs <;> simp_all

theorem stepBit_one_false (B p pk o z : Nat) :
    stepBit B p ⟨pk, o, z, 1⟩ false = ⟨pk, 0, 1, 0⟩ := by
  simp only [stepBit]
  split_ifs <;> simp_all

theorem PackInv_step (B p : Nat) (st : PackState) (i : Nat) (bit : Bool)
    (hi : PackInv B p st i) : PackInv B p (stepBit B p st bit) (i + 1) := by
  obtain ⟨packed, ones, zeros, step⟩ := st
  obtain ⟨h1, h2, h3, h4, h5⟩ := hi
  simp only at h1 h2 h3 h4
  have hmul : (packed + 1) * (B + p) = packed * (B + p) + (B + p) := by
    rw [Nat.add_mul, Nat.one_mul]
  have hstep : step = 0 ∨ step = 1 ∨ step = 2 := by omega
  rcases hstep with hs | hs | hs
  · subst hs
    simp [PackState.credit] at h5
    cases bit
    · rw [stepBit_zero_false]
      split_ifs <;> simp [PackInv, PackState.credit] <;> omega
    · rw [stepBit_zero_true]
      split_ifs <;> simp [PackInv, PackState.credit] <;> omega
  · subst hs
    have hz := h2 rfl
    subst hz
    simp [PackState.credit] at h5
    cases bit
    · rw [stepBit_one_false]
      simp [PackInv, PackState.credit]
      omega
    · rw [stepBit_one_true]
      split_ifs <;> simp [PackInv, PackState.credit] <;> omega
  · subst hs
    have ho := h3 (by decide)
    subst ho
    have hz := h4 rfl
    simp [PackState.credit] at h5
    cases bit
    · rw [stepBit_two_false]
      split_ifs <;> simp [PackInv, PackState.credit] <;> omega
    · rw [stepBit_two_true]
      split_ifs <;> simp [PackInv, PackState.credit] <;> omega

theorem PackInv_foldl (B p : Nat) : ∀ (bits : List Bool) (st : PackState) (i : Nat),
    PackInv B p st i → PackInv B p (bits.foldl (stepBit B p) st) (i + bits.length) := by
  intro bits
  induction bits with
  | nil => intro st i hi; exact hi
  | cons b rest ih =>
    intro st i hi
    have := ih (stepBit B p st b) (i + 1) (PackInv_step B p st i b hi)
    simp only [List.foldl_cons, List.length_cons]
    rw [show i + (rest.length + 1) = i + 1 + rest.length by omega]
    exact this

theorem PackInv_init (B p : Nat) : PackInv B p PackState.init 0 := by
  simp [PackInv, PackState.init, PackState.credit]

theorem packLoop_bound (B p : Nat) (bits : List Bool) :
    (packLoop B p bits).packed * (B + p) ≤ bits.length := by
  have h := PackInv_foldl B p bits PackState.init 0 (PackInv_init B p)
  have h5 := h.2.2.2.2
  simp only [Nat.zero_add] at h5
  exact Nat.le_trans (Nat.le_add_right _ _) h5

theorem packLoop_short (B p : Nat) (bits : List Bool) (hlen : bits.length < B) :
    (packLoop B p bits).packed = 0 := by
  have h := packLoop_bound B p bits
  by_contra hne
  have hpos : 0 < (packLoop B p bits).packed := Nat.pos_of_ne_zero hne
  have h2 : B + p ≤ (packLoop B p bits).packed * (B + p) := Nat.le_mul_of_pos_left _ hpos
  omega

/-- C18: for every brick size, packing size and bit string the result `r` of `evaluate`
satisfies `r * (brick_size + packing_size) ≤ bits.size()`; the loop alone already
yields 0 on a bit string shorter than a brick, so `evaluate` is the value of the loop
with or without the early return. -/
theorem evaluate_times_block_le_size (brick_size packing_size : Nat) (bits : List Bool) :
    evaluate brick_size packing_size bits * (brick_size + packing_size) ≤ bits.length ∧
    (bits.length < brick_size → evaluate brick_size packing_size bits = 0) ∧
    evaluate brick_size packing_size bits = (packLoop brick_size packing_size bits).packed := by
  have heq : evaluate brick_size packing_size bits
      = (packLoop brick_size packing_size bits).packed := by
    unfold evaluate
    split
    · rename_i hlt
      exact (packLoop_short brick_size packing_size bits hlt).symm
    · rfl
  refine ⟨?_, ?_, heq⟩
  · rw [heq]
    exact packLoop_bound brick_size packing_size bits
  · intro hlt
    rw [heq]
    exact packLoop_short brick_size packing_size bits hlt

theorem foldl_ones (B p pk z : Nat) : ∀ (m o : Nat), o + m < B →
    (List.replicate m true).foldl (stepBit B p) ⟨pk, o, z, 1⟩ = ⟨pk, o + m, z, 1⟩ := by
  intro m
  induction m with
  | zero => intro o _; rfl
  | succ m ih =>
    intro o ho
    rw [List.replicate_succ, List.foldl_cons, stepBit_one_true, if_neg (by omega),
      ih (o + 1) (by omega)]
    simp only [PackState.mk.injEq, true_and, and_true]
    omega

theorem foldl_zeros (B p pk o : Nat) : ∀ (m z : Nat), z + m < p →
    (List.replicate m false).foldl (stepBit B p) ⟨pk, o, z, 2⟩ = ⟨pk, o, z + m, 2⟩ := by
  intro m
  induction m with
  | zero => intro z _; rfl
  | succ m ih =>
    intro z hz
    rw [List.replicate_succ, List.foldl_cons, stepBit_two_false, if_neg (by omega),
      ih (z + 1) (by omega)]
    simp only [PackState.mk.injEq, true_and, and_true]
    omega

theorem replicate_snoc (n : Nat) (b : Bool) :
    List.replicate (n + 1) b = List.replicate n b ++ [b] :=
  List.replicate_succ' n b

theorem foldl_brick (B p pk : Nat) (hB : 1 ≤ B) :
    (List.replicate B true).foldl (stepBit B p) ⟨pk, 0, 0, 1⟩ =
      if p = 0 then ⟨pk + 1, 0, 0, 1⟩ else ⟨pk, 0, 0, 2⟩ := by
  obtain ⟨n, rfl⟩ : ∃ n, B = n + 1 := ⟨B - 1, by omega⟩
  rw [replicate_snoc, List.foldl_append, foldl_ones (n + 1) p pk 0 n 0 (by omega)]
  simp only [List.foldl_cons, List.foldl_nil]
  rw [stepBit_one_true, if_pos (by omega)]

theorem foldl_packing (B p pk : Nat) (hp : 1 ≤ p) :
    (List.replicate p false).foldl (stepBit B p) ⟨pk, 0, 0, 2⟩ = ⟨pk + 1, 0, 0, 1⟩ := by
  obtain ⟨n, rfl⟩ : ∃ n, p = n + 1 := ⟨p - 1, by omega⟩
  rw [replicate_snoc, List.foldl_append, foldl_zeros B (n + 1) pk 0 n 0 (by omega)]
  simp only [List.foldl_cons, List.foldl_nil]
  rw [stepBit_two_false, if_pos (by omega)]

theorem foldl_packedBricks (B p : Nat) (hB : 1 ≤ B) : ∀ (k pk : Nat),
    (packedBricks B p k).foldl (stepBit B p) ⟨pk, 0, 0, 1⟩ = ⟨pk + k, 0, 0, 1⟩ := by
  intro k
  induction k with
  | zero => intro pk; rfl
  | succ k ih =>
    intro pk
    simp only [packedBricks, List.foldl_append]
    rw [foldl_brick B p pk hB]
    by_cases hp : p = 0
    · subst hp
      rw [if_pos rfl]
      simp only [List.replicate_zero, List.foldl_nil]
      rw [ih (pk + 1)]
      simp only [PackState.mk.injEq, and_true]
      omega
    · rw [if_neg hp, foldl_packing B p pk (by omega), ih (pk + 1)]
      simp only [PackState.mk.injEq, and_true]
      omega

/-- C17: for every brick size at least 1, every packing size and every `k`, `evaluate`
returns `k` on the bit string made of `k` repetitions of `brick_size` ones followed by
`packing_size` zeros. -/
theorem evaluate_packedBricks (brick_size packing_size k : Nat) (hB : 1 ≤ brick_size) :
    evaluate brick_size packing_size (packedBricks brick_size packing_size k) = k := by
  unfold evaluate
  cases k with
  | zero =>
    simp only [packedBricks, List.length_nil]
    rw [if_pos (by omega)]
  | succ k =>
    have hlen : ¬ (packedBricks brick_size packing_size (k + 1)).length < brick_size := by
      simp only [packedBricks, List.length_append, List.length_replicate]
      omega
    rw [if_neg hlen]
    unfold packLoop PackState.init
    rw [foldl_packedBricks brick_size packing_size hB (k + 1) 0]
    simp

/-- Witness for C17: three bricks of two ones, each followed by two zeros. -/
theorem evaluate_packedBricks_witness :
    1 ≤ 2 ∧ evaluate 2 2 (packedBricks 2 2 3) = 3 :=
  ⟨by decide, evaluate_packedBricks 2 2 3 (by decide)⟩

/-- C13, evaluated: brick size 2, packing size 2, and the bits `0001100`: three zeros (one
more than the packing size), a brick of exactly two ones, two zeros.  The first two zeros
complete a front packing, the third zero is read while a brick is expected and restarts
the search with one zero counted, so the brick arrives with an incomplete packing and
is not counted: `evaluate` returns 0.  With exactly two zeros in front it returns 1. -/
theorem evaluate_extra_front_zero :
    evaluate 2 2 (List.replicate 3 false ++ List.replicate 2 true ++ List.replicate 2 false)
      = 0 ∧
    evaluate 2 2 (List.replicate 2 false ++ List.replicate 2 true ++ List.replicate 2 false)
      = 1 ∧
    evaluate 2 1 (List.replicate 1 false ++ List.replicate 2 true ++ List.replicate 1 false)
      = 0 := by
  decide

/-! ## `UpdateDefault`, in full -/

theorem refreshed_body (vars : Vars) (e : ConfigEntry) : (refreshed vars e).body = e.body := by
  unfold refreshed
  cases hb : e.body <;> simp [hb]

theorem refreshed_idem (vars : Vars) (e : ConfigEntry) :
    refreshed vars (refreshed vars e) = refreshed vars e := by
  unfold refreshed
  cases hb : e.body <;> simp [hb]

theorem refreshed_scope (vars : Vars) {e : ConfigEntry} {ents : List (String × Nat)}
    (hb : e.body = Body.scope ents) : refreshed vars e = { e with default_val := "" } := by
  unfold refreshed
  simp [hb]

theorem refreshed_linked (vars : Vars) {e : ConfigEntry} {v : Nat}
    (hb : e.body = Body.linked v) :
    refreshed vars e = { e with default_val := toString (vars v) } := by
  unfold refreshed
  simp [hb]

theorem UpdatedFrom.get {vars : Vars} {h h1 : Heap} {D : Nat → Prop}
    (hu : UpdatedFrom vars h D h1) (x : Nat) :
    h1[x]? = h[x]? ∨ h1[x]? = (h[x]?).map (refreshed vars) := by
  by_cases hd : D x
  · exact Or.inr ((hu.2 x).1 hd)
  · exact Or.inl ((hu.2 x).2 hd)

theorem UpdatedFrom.keeps_body {vars : Vars} {h h1 : Heap} {D : Nat → Prop}
    (hu : UpdatedFrom vars h D h1) {x : Nat} {e : ConfigEntry} (he : h[x]? = some e) :
    ∃ e1, h1[x]? = some e1 ∧ e1.body = e.body := by
  rcases hu.get x with h2 | h2
  · exact ⟨e, by rw [h2]; exact he, rfl⟩
  · exact ⟨refreshed vars e, by rw [h2, he]; rfl, refreshed_body vars e⟩

theorem UpdatedFrom.body_from {vars : Vars} {h h1 : Heap} {D : Nat → Prop}
    (hu : UpdatedFrom vars h D h1) {x : Nat} {e1 : ConfigEntry} (he : h1[x]? = some e1) :
    ∃ e, h[x]? = some e ∧ e1.body = e.body := by
  rcases hu.get x with h2 | h2
  · exact ⟨e1, by rw [← h2]; exact he, rfl⟩
  · rw [h2] at he
    cases hx : h[x]? with
    | none => rw [hx] at he; exact Option.noConfusion he
    | some e =>
      rw [hx] at he
      have := Option.some.inj he
      exact ⟨e, rfl, by rw [← this]; exact refreshed_body vars e⟩

theorem Descends_congr {h h1 : Heap}
    (hb : ∀ (x : Nat) (e : ConfigEntry), h[x]? = some e →
      ∃ e1 : ConfigEntry, h1[x]? = some e1 ∧ e1.body = e.body)
    {s t : Nat} (hd : Descends h s t) : Descends h1 s t := by
  induction hd with
  | self => exact Descends.self
  | child t c e ents k _ he hbe hm ih =>
    obtain ⟨e1, he1, hb1⟩ := hb t e he
    exact Descends.child t c e1 ents k ih he1 (hb1.trans hbe) hm

theorem UpdatedFrom.descends {vars : Vars} {h h1 : Heap} {D : Nat → Prop}
    (hu : UpdatedFrom vars h D h1) (s t : Nat) : Descends h1 s t ↔ Descends h s t :=
  ⟨Descends_congr (fun _ _ he => by
      obtain ⟨e, h1, h2⟩ := hu.body_from he
      exact ⟨e, h1, h2.symm⟩),
   Descends_congr (fun _ _ he => hu.keeps_body he)⟩

theorem Descends_cases {h : Heap} {s x : Nat} (hd : Descends h s x) :
    x = s ∨ ∃ e ents k c, h[s]? = some e ∧ e.body = Body.scope ents ∧ (k, c) ∈ ents ∧
      Descends h c x := by
  induction hd with
  | self => exact Or.inl rfl
  | child t c e ents k _ he hb hm ih =>
    right
    rcases ih with h1 | ⟨e0, ents0, k0, c0, h1, h2, h3, h4⟩
    · subst h1
      exact ⟨e, ents, k, c, he, hb, hm, Descends.self⟩
    · exact ⟨e0, ents0, k0, c0, h1, h2, h3, Descends.child t c e ents k h4 he hb hm⟩

theorem Descends_of_child {h : Heap} {s c x : Nat} {e : ConfigEntry}
    {ents : List (String × Nat)} {k : String} (he : h[s]? = some e)
    (hb : e.body = Body.scope ents) (hm : (k, c) ∈ ents) (hd : Descends h c x) :
    Descends h s x := by
  induction hd with
  | self => exact Descends.child s c e ents k Descends.self he hb hm
  | child t c1 e1 ents1 k1 _ he1 hb1 hm1 ih => exact Descends.child t c1 e1 ents1 k1 ih he1 hb1 hm1

theorem updateEntries_spec (vars : Vars) (fuel : Nat) (upd : Heap → Nat → Option Heap)
    (hupd : ∀ g c, WF g → c < g.length → g.length ≤ fuel + c →
      ∃ g1, upd g c = some g1 ∧ WF g1 ∧ UpdatedFrom vars g (Descends g c) g1) :
    ∀ (l : List (String × Nat)) (g : Heap), WF g →
      (∀ kc ∈ l, kc.2 < g.length ∧ g.length ≤ fuel + kc.2) →
      ∃ g1, updateEntries upd g l = some g1 ∧ WF g1 ∧
        UpdatedFrom vars g (fun x => ∃ kc ∈ l, Descends g kc.2 x) g1 := by
  intro l
  induction l with
  | nil =>
    intro g hw _
    refine ⟨g, rfl, hw, rfl, ?_⟩
    intro x
    exact ⟨fun ⟨kc, hkc, _⟩ => absurd hkc (List.not_mem_nil kc), fun _ => rfl⟩
  | cons kc rest ih =>
    obtain ⟨k, c⟩ := kc
    intro g hw hall
    obtain ⟨hc1, hc2⟩ := hall (k, c) (List.mem_cons_self _ _)
    obtain ⟨g1, hrun1, hw1, hu1⟩ := hupd g c hw hc1 hc2
    have hall1 : ∀ kc ∈ rest, kc.2 < g1.length ∧ g1.length ≤ fuel + kc.2 := by
      intro kc hkc
      rw [hu1.1]
      exact hall kc (List.mem_cons_of_mem _ hkc)
    obtain ⟨g2, hrun2, hw2, hu2⟩ := ih g1 hw1 hall1
    refine ⟨g2, ?_, hw2, hu2.1.trans hu1.1, ?_⟩
    · simp only [updateEntries, hrun1]
      exact hrun2
    · intro x
      by_cases hd2 : ∃ kc ∈ rest, Descends g1 kc.2 x
      · have h2 := (hu2.2 x).1 hd2
        obtain ⟨kc, hkc, hdk⟩ := hd2
        constructor
        · intro _
          rcases hu1.get x with h1 | h1
          · rw [h2, h1]
          · rw [h2, h1]
            cases hgx : g[x]? <;> simp [refreshed_idem]
        · intro hnot
          exact absurd ⟨kc, List.mem_cons_of_mem _ hkc, (hu1.descends kc.2 x).1 hdk⟩ hnot
      · have h2 := (hu2.2 x).2 hd2
        constructor
        · rintro ⟨kc, hkc, hdk⟩
          rcases List.mem_cons.1 hkc with h3 | h3
          · subst h3
            rw [h2, (hu1.2 x).1 hdk]
          · exact absurd ⟨kc, h3, (hu1.descends kc.2 x).2 hdk⟩ hd2
        · intro hnot
          have hnc : ¬ Descends g c x := fun hd => hnot ⟨(k, c), List.mem_cons_self _ _, hd⟩
          rw [h2, (hu1.2 x).2 hnc]

theorem setDefault_of_get {h : Heap} {a : Nat} {e : ConfigEntry} (s : String)
    (he : h[a]? = some e) :
    setDefault h a s = some (h.set a { e with default_val := s }) := by
  unfold setDefault
  rw [he]

theorem UpdateDefaultFuel_spec (vars : Vars) : ∀ (fuel : Nat) (g : Heap) (a : Nat),
    WF g → a < g.length → g.length ≤ fuel + a →
    ∃ g1, UpdateDefaultFuel vars fuel g a = some g1 ∧ WF g1 ∧
      UpdatedFrom vars g (Descends g a) g1 := by
  intro fuel
  induction fuel with
  | zero => intro g a _ ha hf; omega
  | succ fuel ih =>
    intro g a hw ha hf
    obtain ⟨e, he⟩ : ∃ e, g[a]? = some e := ⟨g[a], List.getElem?_eq_getElem ha⟩
    cases hb : e.body with
    | linked v =>
      have hrun : UpdateDefaultFuel vars (fuel + 1) g a
          = some (g.set a { e with default_val := toString (vars v) }) := by
        simp only [UpdateDefaultFuel, he, hb]
        rw [setDefault_of_get _ he, hb]
      refine ⟨_, hrun, WF_setDefault hw (setDefault_of_get _ he), by simp, ?_⟩
      intro x
      constructor
      · intro hd
        rcases Descends_cases hd with h1 | ⟨e0, ents0, _, _, h1, h2, _, _⟩
        · subst h1
          rw [get_set_self _ he, he, ← refreshed_linked vars hb]
          rfl
        · rw [he] at h1
          have := Option.some.inj h1
          subst this
          rw [hb] at h2
          exact Body.noConfusion h2
      · intro hnd
        have hxa : x ≠ a := fun hxa => hnd (hxa ▸ Descends.self)
        exact get_set_other _ hxa
    | scope ents =>
      have hall : ∀ kc ∈ ents, kc.2 < g.length ∧ g.length ≤ fuel + kc.2 := by
        intro kc hkc
        have := hw.child_fwd a e ents he hb kc.1 kc.2 hkc
        exact ⟨this.2, by omega⟩
      obtain ⟨g1, hrun1, hw1, hu1⟩ :=
        updateEntries_spec vars fuel (UpdateDefaultFuel vars fuel) ih ents g hw hall
      have hnota : ¬ ∃ kc ∈ ents, Descends g kc.2 a := by
        rintro ⟨kc, hkc, hd⟩
        have h1 := hw.child_fwd a e ents he hb kc.1 kc.2 hkc
        have h2 := hd.ge hw
        omega
      have he1 : g1[a]? = some e := by rw [(hu1.2 a).2 hnota]; exact he
      have hrun : UpdateDefaultFuel vars (fuel + 1) g a
          = some (g1.set a { e with default_val := "" }) := by
        simp only [UpdateDefaultFuel, he, hb, hrun1]
        rw [setDefault_of_get _ he1, hb]
      refine ⟨_, hrun, WF_setDefault hw1 (setDefault_of_get _ he1), ?_, ?_⟩
      · rw [List.length_set]; exact hu1.1
      · intro x
        by_cases hxa : x = a
        · subst hxa
          constructor
          · intro _
            rw [get_set_self _ he1, he, ← refreshed_scope vars hb]
            rfl
          · intro hnd
            exact absurd Descends.self hnd
        · rw [get_set_other _ hxa]
          constructor
          · intro hd
            rcases Descends_cases hd with h1 | ⟨e0, ents0, k, c, h1, h2, h3, h4⟩
            · exact absurd h1 hxa
            · rw [he] at h1
              have := Option.some.inj h1
              subst this
              rw [hb] at h2
              have := Body.scope.inj h2
              subst this
              exact (hu1.2 x).1 ⟨(k, c), h3, h4⟩
          · intro hnd
            refine (hu1.2 x).2 ?_
            rintro ⟨kc, hkc, hd⟩
            exact hnd (Descends_of_child he hb hkc hd)

/-- C11: on every well-formed heap (the reachable heaps are well-formed, and so is a tree
whose scopes carry arbitrary default texts), `UpdateDefault()` on a scope S returns, and
afterwards every object of the subtree of S is the object it was with its default text
refreshed by its own `UpdateDefault` (the empty string for S and for every scope nested
below S, whatever the text was before), while in every cell of the heap the name, the
description, the owner and the map of children (hence the child-name set) are what they
were. -/
theorem UpdateDefault_refreshes_subtree (vars : Vars) (h : Heap) (s : Nat) (hw : WF h)
    (hs : isScope h s = true) :
    ∃ h1, UpdateDefault vars h s = some h1 ∧
      (∀ (t : Nat) (e : ConfigEntry), Descends h s t → h[t]? = some e →
        h1[t]? = some (refreshed vars e)) ∧
      (∀ (t : Nat) (e : ConfigEntry) (ents : List (String × Nat)), Descends h s t →
        h[t]? = some e → e.body = Body.scope ents →
        ∃ e1 : ConfigEntry, h1[t]? = some e1 ∧ e1.default_val = "") ∧
      (∀ (t : Nat) (e : ConfigEntry), h[t]? = some e →
        ∃ e1 : ConfigEntry, h1[t]? = some e1 ∧ e1.name = e.name ∧
        e1.desc = e.desc ∧ e1.scope = e.scope ∧ e1.body = e.body) := by
  obtain ⟨e0, ents0, he0, _⟩ := (isScope_iff h s).1 hs
  obtain ⟨h1, hrun, _, hu⟩ :=
    UpdateDefaultFuel_spec vars h.length h s hw (lt_of_get he0) (by omega)
  refine ⟨h1, hrun, ?_, ?_, ?_⟩
  · intro t e hd he
    rw [(hu.2 t).1 hd, he]
    rfl
  · intro t e ents hd he hb
    refine ⟨refreshed vars e, ?_, ?_⟩
    · rw [(hu.2 t).1 hd, he]
      rfl
    · rw [refreshed_scope vars hb]
  · intro t e he
    rcases hu.get t with h2 | h2
    · exact ⟨e, by rw [h2]; exact he, rfl, rfl, rfl, rfl⟩
    · refine ⟨refreshed vars e, by rw [h2, he]; rfl, ?_⟩
      unfold refreshed
      cases hb : e.body <;> simp [hb]

theorem exStale_cells {a : Nat} {e : ConfigEntry} (he : exStale[a]? = some e) :
    (a = 0 ∧ e = ConfigEntry.mk "root" "" "old" none (Body.scope [("c", 1), ("v", 3)])) ∨
    (a = 1 ∧ e = ConfigEntry.mk "c" "" "stale" (some 0) (Body.scope [("d", 2)])) ∨
    (a = 2 ∧ e = ConfigEntry.mk "d" "" "deep" (some 1) (Body.scope [])) ∨
    (a = 3 ∧ e = ConfigEntry.mk "v" "" "0" (some 0) (Body.linked 0)) := by
  have ha : a < 4 := lt_of_get he
  have h4 : a = 0 ∨ a = 1 ∨ a = 2 ∨ a = 3 := by omega
  rcases h4 with h0 | h0 | h0 | h0 <;> subst h0
  · exact Or.inl ⟨rfl, (Option.some.inj he).symm⟩
  · exact Or.inr (Or.inl ⟨rfl, (Option.some.inj he).symm⟩)
  · exact Or.inr (Or.inr (Or.inl ⟨rfl, (Option.some.inj he).symm⟩))
  · exact Or.inr (Or.inr (Or.inr ⟨rfl, (Option.some.inj he).symm⟩))

theorem exStale_children {a : Nat} {e : ConfigEntry} {ents : List (String × Nat)}
    {k : String} {c : Nat} (he : exStale[a]? = some e) (hb : e.body = Body.scope ents)
    (hm : (k, c) ∈ ents) :
    (a = 0 ∧ k = "c" ∧ c = 1) ∨ (a = 0 ∧ k = "v" ∧ c = 3) ∨ (a = 1 ∧ k = "d" ∧ c = 2) := by
  rcases exStale_cells he with ⟨h0, h1⟩ | ⟨h0, h1⟩ | ⟨h0, h1⟩ | ⟨h0, h1⟩ <;> subst h0 <;>
    subst h1 <;> cases hb
  · rcases List.mem_cons.1 hm with h2 | h2
    · cases h2; exact Or.inl ⟨rfl, rfl, rfl⟩
    · rcases List.mem_cons.1 h2 with h3 | h3
      · cases h3; exact Or.inr (Or.inl ⟨rfl, rfl, rfl⟩)
      · exact absurd h3 (List.not_mem_nil _)
  · rcases List.mem_cons.1 hm with h2 | h2
    · cases h2; exact Or.inr (Or.inr ⟨rfl, rfl, rfl⟩)
    · exact absurd h2 (List.not_mem_nil _)
  · exact absurd hm (List.not_mem_nil _)

theorem exStale_wf : WF exStale := by
  constructor
  · intro a e ents he hb k c hm
    rcases exStale_children he hb hm with ⟨h0, _, h2⟩ | ⟨h0, _, h2⟩ | ⟨h0, _, h2⟩ <;>
      subst h0 <;> subst h2 <;> decide
  · intro a e ents he hb
    rcases exStale_cells he with ⟨h0, h1⟩ | ⟨h0, h1⟩ | ⟨h0, h1⟩ | ⟨h0, h1⟩ <;> subst h0 <;>
      subst h1 <;> cases hb <;> decide
  · intro a e ents he hb k c hm
    rcases exStale_children he hb hm with ⟨_, h1, h2⟩ | ⟨_, h1, h2⟩ | ⟨_, h1, h2⟩ <;>
      subst h1 <;> subst h2 <;> exact ⟨_, rfl, rfl⟩
  · intro a e p he hp
    rcases exStale_cells he with ⟨h0, h1⟩ | ⟨h0, h1⟩ | ⟨h0, h1⟩ | ⟨h0, h1⟩ <;> subst h0 <;>
      subst h1 <;> cases hp <;> decide

/-- On the heap `exStale`, whose three scopes carry the default texts `old`, `stale` and
`deep`, `UpdateDefault()` on the root leaves every scope with the empty default text and
the linked entry with the text of its variable. -/
theorem UpdateDefault_exStale :
    (UpdateDefault exVars exStale 0).map (fun h1 => h1.map ConfigEntry.default_val)
      = some ["", "", "", "5"] ∧
    exStale.map ConfigEntry.default_val = ["old", "stale", "deep", "0"] := by
  decide

/-- Witness for C11: `UpdateDefault()` on the root of `exStale`, a well-formed tree whose
scopes have non-empty default texts before the call. -/
theorem UpdateDefault_refreshes_subtree_witness :
    WF exStale ∧ isScope exStale 0 = true ∧
    ∃ h1, UpdateDefault exVars exStale 0 = some h1 ∧
      (∀ (t : Nat) (e : ConfigEntry), Descends exStale 0 t → exStale[t]? = some e →
        h1[t]? = some (refreshed exVars e)) ∧
      (∀ (t : Nat) (e : ConfigEntry) (ents : List (String × Nat)), Descends exStale 0 t →
        exStale[t]? = some e → e.body = Body.scope ents →
        ∃ e1 : ConfigEntry, h1[t]? = some e1 ∧ e1.default_val = "") ∧
      (∀ (t : Nat) (e : ConfigEntry), exStale[t]? = some e →
        ∃ e1 : ConfigEntry, h1[t]? = some e1 ∧ e1.name = e.name ∧
        e1.desc = e.desc ∧ e1.scope = e.scope ∧ e1.body = e.body) :=
  ⟨exStale_wf, by decide,
   UpdateDefault_refreshes_subtree exVars exStale 0 exStale_wf (by decide)⟩

/-! ## Every entry is stored in one map only -/

theorem WF.toFwd {h : Heap} (hw : WF h) : Fwd h := hw.child_fwd

theorem Fwd_alloc {h : Heap} (x : ConfigEntry) (hf : Fwd h)
    (hb : ∀ ents, x.body = Body.scope ents → ents = []) : Fwd (h ++ [x]) := by
  intro a e ents he hbe k c hm
  rcases get_alloc he with ⟨_, h1⟩ | ⟨_, h1⟩
  · have := hf a e ents h1 hbe k c hm
    simp only [List.length_append, List.length_singleton]
    omega
  · subst h1
    rw [hb ents hbe] at hm
    simp at hm

theorem Fwd_setEntry {h h1 : Heap} {self c : Nat} {k : String} (hf : Fwd h)
    (hs : setEntry h self k c = some h1) (h1c : self < c) (h2c : c < h.length) : Fwd h1 := by
  obtain ⟨e, ents, he, hb, h1eq⟩ := setEntry_some hs
  subst h1eq
  intro a y entsy hy hby k1 c1 hm
  rw [List.length_set]
  by_cases ha : a = self
  · subst ha
    rw [get_set_self _ he] at hy
    have := Option.some.inj hy
    subst this
    simp only [Body.scope.injEq] at hby
    subst hby
    rcases mem_mapSet ents k c (k1, c1) hm with h2 | h2
    · simp only [Prod.mk.injEq] at h2
      rw [h2.2]
      exact ⟨h1c, h2c⟩
    · exact hf a e ents he hb k1 c1 h2
  · rw [get_set_other _ ha] at hy
    exact hf a y entsy hy hby k1 c1 hm

theorem NoShare_nil : NoShare [] := by
  intro a a1 e e1 ents ents1 k k1 c he
  simp at he

theorem NoShare_alloc {h : Heap} (x : ConfigEntry) (hn : NoShare h)
    (hb : ∀ ents, x.body = Body.scope ents → ents = []) : NoShare (h ++ [x]) := by
  intro a a1 e e1 ents ents1 k k1 c he hbe he1 hbe1 hm hm1
  rcases get_alloc he with ⟨_, h1⟩ | ⟨_, h1⟩
  · rcases get_alloc he1 with ⟨_, h2⟩ | ⟨_, h2⟩
    · exact hn a a1 e e1 ents ents1 k k1 c h1 hbe h2 hbe1 hm hm1
    · subst h2
      rw [hb ents1 hbe1] at hm1
      simp at hm1
  · subst h1
    rw [hb ents hbe] at hm
    simp at hm

theorem NoShare_set {h : Heap} {self : Nat} {e x : ConfigEntry} (hn : NoShare h)
    (he : h[self]? = some e)
    (hx : ∀ ents1, x.body = Body.scope ents1 → ∀ k c, (k, c) ∈ ents1 →
      (∃ ents, e.body = Body.scope ents ∧ ∃ k0, (k0, c) ∈ ents) ∨ Unref h c) :
    NoShare (h.set self x) := by
  have key : ∀ (a : Nat) (y : ConfigEntry) (entsy : List (String × Nat)) (k : String) (c : Nat),
      (h.set self x)[a]? = some y → y.body = Body.scope entsy → (k, c) ∈ entsy →
      (a = self ∧ Unref h c) ∨
      ∃ (y0 : ConfigEntry) (ents0 : List (String × Nat)) (k0 : String),
        h[a]? = some y0 ∧ y0.body = Body.scope ents0 ∧ (k0, c) ∈ ents0 := by
    intro a y entsy k c hy hby hm
    by_cases ha : a = self
    · subst ha
      rw [get_set_self _ he] at hy
      have := Option.some.inj hy
      subst this
      rcases hx entsy hby k c hm with ⟨ents, h1, k0, h2⟩ | h1
      · exact Or.inr ⟨e, ents, k0, he, h1, h2⟩
      · exact Or.inl ⟨rfl, h1⟩
    · rw [get_set_other _ ha] at hy
      exact Or.inr ⟨y, entsy, k, hy, hby, hm⟩
  intro a a1 y y1 ents ents1 k k1 c hy hby hy1 hby1 hm hm1
  rcases key a y ents k c hy hby hm with ⟨h1, h2⟩ | ⟨y0, ents0, k0, h1, h2, h3⟩
  · rcases key a1 y1 ents1 k1 c hy1 hby1 hm1 with ⟨h4, _⟩ | ⟨z0, entsz, kz, h4, h5, h6⟩
    · rw [h1, h4]
    · exact absurd h6 (h2 a1 z0 entsz kz h4 h5)
  · rcases key a1 y1 ents1 k1 c hy1 hby1 hm1 with ⟨_, h5⟩ | ⟨z0, entsz, kz, h4, h5, h6⟩
    · exact absurd h3 (h5 a y0 ents0 k0 h1 h2)
    · exact hn a a1 y0 z0 ents0 entsz k0 kz c h1 h2 h4 h5 h3 h6

theorem NoShare_setEntry {h h1 : Heap} {self c : Nat} {k : String} (hn : NoShare h)
    (hs : setEntry h self k c = some h1) (hu : Unref h c) : NoShare h1 := by
  obtain ⟨e, ents, he, hb, h1eq⟩ := setEntry_some hs
  subst h1eq
  refine NoShare_set hn he ?_
  intro ents1 hb1 k1 c1 hm
  simp only [Body.scope.injEq] at hb1
  subst hb1
  rcases mem_mapSet ents k c (k1, c1) hm with h2 | h2
  · simp only [Prod.mk.injEq] at h2
    rw [h2.2]
    exact Or.inr hu
  · exact Or.inl ⟨ents, hb, k1, h2⟩

theorem NoShare_setDefault {h h1 : Heap} {self : Nat} {s : String} (hn : NoShare h)
    (hs : setDefault h self s = some h1) : NoShare h1 := by
  obtain ⟨e, he, h1eq⟩ := setDefault_some hs
  subst h1eq
  refine NoShare_set hn he ?_
  intro ents1 hb1 k c hm
  exact Or.inl ⟨ents1, hb1, k, hm⟩

theorem Unref_of_grown {g g1 : Heap} (hf : Fwd g) (hf1 : Fwd g1)
    (hag : ∀ x, x < g.length → g1[x]? = g[x]?) : Unref g1 g.length := by
  intro a e ents k he hb hm
  have h1 := hf1 a e ents he hb k g.length hm
  by_cases ha : a < g.length
  · rw [hag a ha] at he
    have := hf a e ents he hb k g.length hm
    omega
  · omega

theorem NoShare_Add {h h1 : Heap} {this c : Nat} {name : String} {obj : ConfigEntry}
    (hf : Fwd h) (hn : NoShare h) (ha : Add h this name obj = some (h1, c))
    (hb : ∀ ents, obj.body = Body.scope ents → ents = []) : NoShare h1 := by
  obtain ⟨_, _, hs⟩ := Add_some ha
  exact NoShare_setEntry (NoShare_alloc obj hn hb) hs
    (Unref_of_grown hf (Fwd_alloc obj hf hb) (fun x hx => get_alloc_old obj hx))

theorem cloneEntries_keeps (cl : Heap → Nat → Option (Heap × Nat)) (self : Nat)
    (hcl : ∀ g c r, cl g c = some r → Fwd g → NoShare g → CloneKeeps g r) :
    ∀ (rest : List (String × Nat)) (g gf : Heap), cloneEntries cl g self rest = some gf →
      Fwd g → NoShare g → self < g.length →
      Fwd gf ∧ NoShare gf ∧ g.length ≤ gf.length ∧
        ∀ x, x ≠ self → x < g.length → gf[x]? = g[x]? := by
  intro rest
  induction rest with
  | nil =>
    intro g gf hrun hf hn _
    simp only [cloneEntries, Option.some.injEq] at hrun
    subst hrun
    exact ⟨hf, hn, Nat.le_refl _, fun _ _ _ => rfl⟩
  | cons kc rest ih =>
    obtain ⟨k, c⟩ := kc
    intro g gf hrun hf hn hself
    simp only [cloneEntries] at hrun
    split at hrun
    · exact Option.noConfusion hrun
    · rename_i g1 c1 hc
      obtain ⟨hf1, hn1, hc1, hlen1, hag1⟩ := hcl g c (g1, c1) hc hf hn
      simp only at hf1 hn1 hc1 hlen1 hag1
      subst hc1
      split at hrun
      · exact Option.noConfusion hrun
      · rename_i g2 hset
        have hf2 : Fwd g2 := Fwd_setEntry hf1 hset hself hlen1
        have hn2 : NoShare g2 := NoShare_setEntry hn1 hset (Unref_of_grown hf hf1 hag1)
        obtain ⟨e, ents, he, _, h2eq⟩ := setEntry_some hset
        have hlen2 : g2.length = g1.length := by rw [h2eq, List.length_set]
        have hag2 : ∀ x, x ≠ self → g2[x]? = g1[x]? := by
          intro x hx
          rw [h2eq]
          exact get_set_other _ hx
        obtain ⟨hff, hnf, hlenf, hagf⟩ := ih g2 gf hrun hf2 hn2 (by omega)
        refine ⟨hff, hnf, by omega, ?_⟩
        intro x hx hxl
        rw [hagf x hx (by omega), hag2 x hx, hag1 x hxl]

theorem CloneFuel_keeps : ∀ (fuel : Nat) (g : Heap) (a : Nat) (r : Heap × Nat),
    CloneFuel fuel g a = some r → Fwd g → NoShare g → CloneKeeps g r := by
  intro fuel
  induction fuel with
  | zero =>
    intro g a r hrun
    simp [CloneFuel] at hrun
  | succ fuel ih =>
    intro g a r hrun hf hn
    simp only [CloneFuel] at hrun
    split at hrun
    · exact Option.noConfusion hrun
    · rename_i e he
      split at hrun
      · rename_i v hb
        have := Option.some.inj hrun
        subst this
        have hno : ∀ ents, e.body = Body.scope ents → ents = [] := by
          intro ents h1
          rw [hb] at h1
          exact Body.noConfusion h1
        exact ⟨Fwd_alloc e hf hno, NoShare_alloc e hn hno, rfl, by simp,
          fun x hx => get_alloc_old e hx⟩
      · rename_i ents hb
        split at hrun
        · exact Option.noConfusion hrun
        · rename_i gf hloop
          have := Option.some.inj hrun
          subst this
          have hno : ∀ ents1, ({ e with body := Body.scope [] } : ConfigEntry).body
              = Body.scope ents1 → ents1 = [] := fun ents1 h1 => (Body.scope.inj h1).symm
          obtain ⟨hff, hnf, hlenf, hagf⟩ :=
            cloneEntries_keeps (CloneFuel fuel) g.length ih ents _ gf hloop
              (Fwd_alloc _ hf hno) (NoShare_alloc _ hn hno) (by simp)
          have hlenA : (g ++ [({ e with body := Body.scope [] } : ConfigEntry)]).length
              = g.length + 1 := by simp
          refine ⟨hff, hnf, rfl, by simp only at hlenf ⊢; omega, ?_⟩
          intro x hx
          simp only
          rw [hagf x (by omega) (by omega), get_alloc_old _ hx]

theorem Reach.noShare {h : Heap} (hr : Reach h) : NoShare h := by
  induction hr with
  | empty => exact NoShare_nil
  | construct h name desc scope _ _ ih =>
    exact NoShare_alloc _ ih (fun ents h1 => (Body.scope.inj h1).symm)
  | addScope h this name desc h1 c hr0 ha ih =>
    exact NoShare_Add hr0.wf.toFwd ih ha (fun ents h1 => (Body.scope.inj h1).symm)
  | linkVar h this var name desc d h1 c hr0 ha ih =>
    exact NoShare_Add hr0.wf.toFwd ih ha (fun ents h1 => Body.noConfusion h1)
  | clone h this h1 c hr0 hc ih =>
    exact (CloneFuel_keeps h.length h this (h1, c) hc hr0.wf.toFwd ih).2.1
  | updateDefault vars h this h1 _ hu ih =>
    have hstep : ∀ (fuel : Nat) (g : Heap) (a : Nat) (g1 : Heap),
        UpdateDefaultFuel vars fuel g a = some g1 → NoShare g → NoShare g1 := by
      intro fuel
      induction fuel with
      | zero => intro g a g1 hrun; simp [UpdateDefaultFuel] at hrun
      | succ fuel ihf =>
        intro g a g1 hrun hn
        simp only [UpdateDefaultFuel] at hrun
        split at hrun
        · exact Option.noConfusion hrun
        · split at hrun
          · exact NoShare_setDefault hn hrun
          · split at hrun
            · exact Option.noConfusion hrun
            · rename_i g2 h2eq
              exact NoShare_setDefault
                (updateEntries_pres NoShare _ ihf _ g g2 h2eq hn) hrun
    exact hstep h.length h this h1 hu ih

/-! ## Destruction -/

theorem Descends_cases_last {h : Heap} {s x : Nat} (hd : Descends h s x) :
    x = s ∨ ∃ t e ents k, Descends h s t ∧ h[t]? = some e ∧ e.body = Body.scope ents ∧
      (k, x) ∈ ents := by
  cases hd with
  | self => exact Or.inl rfl
  | child t _ e ents k hd he hb hm => exact Or.inr ⟨t, e, ents, k, hd, he, hb, hm⟩

theorem Descends_chain {h : Heap} (hn : NoShare h) {s s1 x : Nat} (hd : Descends h s x) :
    Descends h s1 x → Descends h s s1 ∨ Descends h s1 s := by
  induction hd with
  | self => intro hd1; exact Or.inr hd1
  | child t c e ents k hdt he hb hm ih =>
    intro hd1
    rcases Descends_cases_last hd1 with h1 | ⟨t1, e1, ents1, k1, hd2, he1, hb1, hm1⟩
    · subst h1
      exact Or.inl (Descends.child t c e ents k hdt he hb hm)
    · have := hn t t1 e e1 ents ents1 k k1 c he hb he1 hb1 hm hm1
      subst this
      exact ih hd2

theorem siblings_disjoint {h : Heap} (hw : WF h) (hn : NoShare h) {a c1 c2 x : Nat}
    {e : ConfigEntry} {ents : List (String × Nat)} {k1 k2 : String}
    (he : h[a]? = some e) (hb : e.body = Body.scope ents)
    (hm1 : (k1, c1) ∈ ents) (hm2 : (k2, c2) ∈ ents)
    (hd1 : Descends h c1 x) (hd2 : Descends h c2 x) : c1 = c2 := by
  have key : ∀ (u v : Nat) (ku kv : String), (ku, u) ∈ ents → (kv, v) ∈ ents →
      Descends h u v → u = v := by
    intro u v ku kv hu hv hd
    rcases Descends_cases_last hd with h1 | ⟨t, et, entst, kt, hdt, het, hbt, hmt⟩
    · exact h1.symm
    · have hta := hn t a et e entst ents kt kv v het hbt he hb hmt hv
      subst hta
      have h1 := hdt.ge hw
      have h2 := hw.child_fwd t e ents he hb ku u hu
      omega
  rcases Descends_chain hn hd1 hd2 with h1 | h1
  · exact key c1 c2 k1 k2 hm1 hm2 h1
  · exact (key c2 c1 k2 k1 hm2 hm1 h1).symm

theorem deleteEntries_spec {h : Heap} (hw : WF h) (hn : NoShare h) {a : Nat}
    {e : ConfigEntry} {ents : List (String × Nat)} (he : h[a]? = some e)
    (hb : e.body = Body.scope ents) (del : Nat → Option (List Nat))
    (hdel : ∀ kc ∈ ents, ∃ dl, del kc.2 = some dl ∧ dl.Nodup ∧
      ∀ t, t ∈ dl ↔ Descends h kc.2 t) :
    ∀ (l : List (String × Nat)), (∀ kc ∈ l, kc ∈ ents) →
      l.Pairwise (fun x y => strLt x.1 y.1 = true) →
      ∃ dl, deleteEntries del l = some dl ∧ dl.Nodup ∧
        ∀ t, t ∈ dl ↔ ∃ kc ∈ l, Descends h kc.2 t := by
  intro l
  induction l with
  | nil =>
    intro _ _
    exact ⟨[], rfl, List.nodup_nil, fun t => by simp⟩
  | cons kc rest ih =>
    obtain ⟨k, c⟩ := kc
    intro hsub hsorted
    have hs2 := List.pairwise_cons.1 hsorted
    obtain ⟨d1, hrun1, hnd1, hmem1⟩ := hdel (k, c) (hsub _ (List.mem_cons_self _ _))
    obtain ⟨d2, hrun2, hnd2, hmem2⟩ :=
      ih (fun kc hkc => hsub kc (List.mem_cons_of_mem _ hkc)) hs2.2
    refine ⟨d1 ++ d2, ?_, ?_, ?_⟩
    · simp only [deleteEntries, hrun1, hrun2]
    · refine List.Nodup.append hnd1 hnd2 ?_
      intro t ht1 ht2
      obtain ⟨kc, hkc, hdk⟩ := (hmem2 t).1 ht2
      have hcc : c = kc.2 :=
        siblings_disjoint hw hn he hb (hsub _ (List.mem_cons_self _ _))
          (hsub kc (List.mem_cons_of_mem _ hkc)) ((hmem1 t).1 ht1) hdk
      obtain ⟨ec, hec, hname⟩ :=
        hw.key_name a e ents he hb k c (hsub _ (List.mem_cons_self _ _))
      obtain ⟨ec2, hec2, hname2⟩ :=
        hw.key_name a e ents he hb kc.1 kc.2 (hsub kc (List.mem_cons_of_mem _ hkc))
      rw [← hcc, hec] at hec2
      have := Option.some.inj hec2
      subst this
      exact strLt_ne k kc.1 (hs2.1 kc hkc) (hname.symm.trans hname2)
    · intro t
      rw [List.mem_append, hmem1 t, hmem2 t]
      constructor
      · rintro (h1 | ⟨kc, hkc, hdk⟩)
        · exact ⟨(k, c), List.mem_cons_self _ _, h1⟩
        · exact ⟨kc, List.mem_cons_of_mem _ hkc, hdk⟩
      · rintro ⟨kc, hkc, hdk⟩
        rcases List.mem_cons.1 hkc with h1 | h1
        · subst h1; exact Or.inl hdk
        · exact Or.inr ⟨kc, h1, hdk⟩

theorem DeleteFuel_spec {h : Heap} (hw : WF h) (hn : NoShare h) : ∀ (fuel : Nat) (a : Nat),
    a < h.length → h.length ≤ fuel + a →
    ∃ dl, DeleteFuel fuel h a = some dl ∧ dl.Nodup ∧ ∀ t, t ∈ dl ↔ Descends h a t := by
  intro fuel
  induction fuel with
  | zero => intro a ha hf; omega
  | succ fuel ih =>
    intro a ha hf
    obtain ⟨e, he⟩ : ∃ e, h[a]? = some e := ⟨h[a], List.getElem?_eq_getElem ha⟩
    cases hb : e.body with
    | linked v =>
      refine ⟨[a], by simp only [DeleteFuel, he, hb], List.nodup_singleton a, ?_⟩
      intro t
      rw [List.mem_singleton]
      constructor
      · intro h1; rw [h1]; exact Descends.self
      · intro hd
        rcases Descends_cases hd with h1 | ⟨e0, ents0, _, _, h1, h2, _, _⟩
        · exact h1
        · rw [he] at h1
          have := Option.some.inj h1
          subst this
          rw [hb] at h2
          exact Body.noConfusion h2
    | scope ents =>
      have hdel : ∀ kc ∈ ents, ∃ dl, DeleteFuel fuel h kc.2 = some dl ∧ dl.Nodup ∧
          ∀ t, t ∈ dl ↔ Descends h kc.2 t := by
        intro kc hkc
        have := hw.child_fwd a e ents he hb kc.1 kc.2 hkc
        exact ih kc.2 this.2 (by omega)
      obtain ⟨d, hrun, hnd, hmem⟩ :=
        deleteEntries_spec hw hn he hb (DeleteFuel fuel h) hdel ents (fun _ hkc => hkc)
          (hw.sorted a e ents he hb)
      refine ⟨d ++ [a], by simp only [DeleteFuel, he, hb, hrun], ?_, ?_⟩
      · refine List.Nodup.append hnd (List.nodup_singleton a) ?_
        intro t ht1 ht2
        rw [List.mem_singleton] at ht2
        subst ht2
        obtain ⟨kc, hkc, hdk⟩ := (hmem t).1 ht1
        have h1 := hw.child_fwd t e ents he hb kc.1 kc.2 hkc
        have h2 := hdk.ge hw
        omega
      · intro t
        rw [List.mem_append, List.mem_singleton, hmem t]
        constructor
        · rintro (⟨kc, hkc, hdk⟩ | h1)
          · exact Descends_of_child he hb hkc hdk
          · rw [h1]; exact Descends.self
        · intro hd
          rcases Descends_cases hd with h1 | ⟨e0, ents0, k, c, h1, h2, h3, h4⟩
          · exact Or.inr h1
          · rw [he] at h1
            have := Option.some.inj h1
            subst this
            rw [hb] at h2
            have := Body.scope.inj h2
            subst this
            exact Or.inl ⟨(k, c), h3, h4⟩

/-- On a reachable heap destruction returns, releases no cell twice and releases exactly the
objects of the subtree that the maps describe at that moment. -/
theorem Delete_releases_subtree {h : Heap} (hr : Reach h) {a : Nat} (ha : a < h.length) :
    ∃ dl, Delete h a = some dl ∧ dl.Nodup ∧ ∀ t, t ∈ dl ↔ Descends h a t :=
  DeleteFuel_spec hr.wf hr.noShare h.length a ha (by omega)

/-- C14, evaluated: on a root scope (address 0) `AddScope("x", "")` is called twice.  The
first call creates the entry at address 1, the second call creates the entry at address 2
and stores it under the same name; `Add` does not delete the pointer it overwrites.
Destroying the root releases the addresses 2 and 0, each once; the entry at address 1,
created inside the scope, is never released and stays live. -/
theorem Delete_after_overwrite_leaks :
    AddScope exRoot 0 "x" "" = some (heapOf (AddScope exRoot 0 "x" ""), 1) ∧
    AddScope (heapOf (AddScope exRoot 0 "x" "")) 0 "x" "" = some (exTwice, 2) ∧
    exTwice.length = 3 ∧
    Delete exTwice 0 = some [2, 0] ∧
    1 ∉ [2, 0] ∧ [2, 0].Nodup := by
  decide

/-! ## Braces in the text of `Write` -/

theorem lbrace_ne_rbrace : lbrace ≠ rbrace := by decide

theorem braceRun_append : ∀ (a b : List Char) (d : Nat),
    braceRun d (a ++ b) = (braceRun d a).bind (fun d1 => braceRun d1 b) := by
  intro a
  induction a with
  | nil => intro b d; rfl
  | cons c rest ih =>
    intro b d
    simp only [List.cons_append, braceRun]
    split_ifs
    · exact ih b (d + 1)
    · cases d with
      | zero => rfl
      | succ d1 => exact ih b d1
    · exact ih b d

theorem braceRun_free : ∀ (l : List Char) (d : Nat), lbrace ∉ l → rbrace ∉ l →
    braceRun d l = some d := by
  intro l
  induction l with
  | nil => intro d _ _; rfl
  | cons c rest ih =>
    intro d h1 h2
    rw [List.mem_cons, not_or] at h1 h2
    simp only [braceRun]
    rw [if_neg (fun h => h1.1 h.symm), if_neg (fun h => h2.1 h.symm)]
    exact ih d h1.2 h2.2

theorem braceRun_shift : ∀ (l : List Char) (d e k : Nat), braceRun d l = some e →
    braceRun (d + k) l = some (e + k) := by
  intro l
  induction l with
  | nil =>
    intro d e k h
    simp only [braceRun, Option.some.injEq] at h ⊢
    omega
  | cons c rest ih =>
    intro d e k h
    simp only [braceRun] at h ⊢
    split_ifs at h ⊢
    · have := ih (d + 1) e k h
      rw [show d + k + 1 = d + 1 + k by omega]
      exact this
    · cases d with
      | zero => exact Option.noConfusion h
      | succ d1 =>
        have := ih d1 e k h
        rw [show d1 + 1 + k = (d1 + k) + 1 by omega]
        exact this
    · exact ih d e k h

theorem braceRun_sound : ∀ (l : List Char) (d e : Nat), braceRun d l = some e →
    e + l.count rbrace = d + l.count lbrace ∧
    ∀ n, (l.take n).count rbrace ≤ d + (l.take n).count lbrace := by
  intro l
  induction l with
  | nil =>
    intro d e h
    simp only [braceRun, Option.some.injEq] at h
    subst h
    exact ⟨rfl, fun n => by simp⟩
  | cons c rest ih =>
    intro d e h
    simp only [braceRun] at h
    split_ifs at h with h1 h2
    · subst h1
      obtain ⟨i1, i2⟩ := ih (d + 1) e h
      have hne : (lbrace == rbrace) = false := by decide
      constructor
      · simp only [List.count_cons, beq_self_eq_true, if_true, hne]
        simp only [Bool.false_eq_true, if_false]
        omega
      · intro n
        cases n with
        | zero => simp
        | succ n =>
          have := i2 n
          simp only [List.take_succ_cons, List.count_cons, beq_self_eq_true, if_true, hne]
          simp only [Bool.false_eq_true, if_false]
          omega
    · subst h2
      have hne : (rbrace == lbrace) = false := by decide
      cases d with
      | zero => exact Option.noConfusion h
      | succ d1 =>
        obtain ⟨i1, i2⟩ := ih d1 e h
        constructor
        · simp only [List.count_cons, beq_self_eq_true, if_true, hne]
          simp only [Bool.false_eq_true, if_false]
          omega
        · intro n
          cases n with
          | zero => simp
          | succ n =>
            have := i2 n
            simp only [List.take_succ_cons, List.count_cons, beq_self_eq_true, if_true, hne]
            simp only [Bool.false_eq_true, if_false]
            omega
    · obtain ⟨i1, i2⟩ := ih d e h
      have hn1 : (c == lbrace) = false := by simpa using h1
      have hn2 : (c == rbrace) = false := by simpa using h2
      constructor
      · simp only [List.count_cons, hn1, hn2]
        simp only [Bool.false_eq_true, if_false]
        omega
      · intro n
        cases n with
        | zero => simp
        | succ n =>
          have := i2 n
          simp only [List.take_succ_cons, List.count_cons, hn1, hn2]
          simp only [Bool.false_eq_true, if_false]
          omega

theorem Balanced_free {l : List Char} (h1 : lbrace ∉ l) (h2 : rbrace ∉ l) : Balanced l 0 :=
  ⟨braceRun_free l 0 h1 h2, List.count_eq_zero.2 h1⟩

theorem Balanced_append {a b : List Char} {n m : Nat} (ha : Balanced a n) (hb : Balanced b m) :
    Balanced (a ++ b) (n + m) := by
  refine ⟨?_, ?_⟩
  · rw [braceRun_append, ha.1]
    exact hb.1
  · rw [List.count_append, ha.2, hb.2]

theorem Balanced_wrap {a : List Char} {n : Nat} (ha : Balanced a n) :
    Balanced ([lbrace] ++ a ++ [rbrace]) (n + 1) := by
  refine ⟨?_, ?_⟩
  · have h1 : braceRun 1 a = some 1 := braceRun_shift a 0 0 1 ha.1
    have hne : ¬ rbrace = lbrace := fun h => lbrace_ne_rbrace h.symm
    rw [braceRun_append, List.singleton_append]
    simp only [braceRun, if_true, Nat.zero_add, h1, Option.some_bind, if_neg hne]
  · have hne : (rbrace == lbrace) = false := by decide
    simp only [List.count_append, List.count_cons, List.count_nil, beq_self_eq_true, if_true,
      hne, ha.2]
    simp only [Bool.false_eq_true, if_false]
    omega

theorem braceFree_append {a b : String} (ha : braceFree a) (hb : braceFree b) :
    braceFree (a ++ b) := by
  unfold braceFree at *
  simp only [String.data_append, List.mem_append, not_or]
  exact ⟨⟨ha.1, hb.1⟩, ⟨ha.2, hb.2⟩⟩

theorem braceFree_literals :
    braceFree "" ∧ braceFree "  " ∧ braceFree "// " ∧ braceFree "\n" ∧ braceFree " = " := by
  unfold braceFree
  decide

theorem brace_lines :
    " = \x7b\n" = " = " ++ "\x7b" ++ "\n" ∧ "\x7d\n" = "\x7d" ++ "\n" ∧
    "\x7b".data = [lbrace] ∧ "\x7d".data = [rbrace] := by
  decide

theorem braceFree_commentLine {p d : String} (hp : braceFree p) (hd : braceFree d) :
    braceFree (commentLine p d) := by
  unfold commentLine
  split
  · exact braceFree_literals.1
  · exact braceFree_append (braceFree_append (braceFree_append hp braceFree_literals.2.2.1) hd)
      braceFree_literals.2.2.2.1

theorem Balanced_of_braceFree {s : String} (hs : braceFree s) : Balanced s.data 0 :=
  Balanced_free hs.1 hs.2

theorem scope_text_balanced {p d name X : String} {n : Nat} (hp : braceFree p)
    (hd : braceFree d) (hname : braceFree name) (hX : Balanced X.data n) :
    Balanced (commentLine p d ++ p ++ name ++ " = \x7b\n" ++ X ++ p ++ "\x7d\n").data
      (n + 1) := by
  have hhead : braceFree (commentLine p d ++ p ++ name ++ " = ") :=
    braceFree_append (braceFree_append (braceFree_append (braceFree_commentLine hp hd) hp)
      hname) braceFree_literals.2.2.2.2
  have hmid : Balanced ("\n".data ++ X.data ++ p.data) n := by
    have h1 := Balanced_append (Balanced_append
      (Balanced_of_braceFree braceFree_literals.2.2.2.1) hX) (Balanced_of_braceFree hp)
    simpa using h1
  have hall := Balanced_append (Balanced_append (Balanced_of_braceFree hhead)
    (Balanced_wrap hmid)) (Balanced_of_braceFree braceFree_literals.2.2.2.1)
  have hlist : (commentLine p d ++ p ++ name ++ " = \x7b\n" ++ X ++ p ++ "\x7d\n").data
      = (commentLine p d ++ p ++ name ++ " = ").data
        ++ ([lbrace] ++ ("\n".data ++ X.data ++ p.data) ++ [rbrace]) ++ "\n".data := by
    rw [brace_lines.1, brace_lines.2.1]
    simp only [String.data_append, brace_lines.2.2.1, brace_lines.2.2.2, List.append_assoc]
    rfl
  rw [hlist]
  simpa using hall

theorem entries_braces (w : String → Nat → Option String) (del : Nat → Option (List Nat)) :
    ∀ (l : List (String × Nat)),
      (∀ kc ∈ l, ∃ out dl, (∀ os, w os kc.2 = some (os ++ out)) ∧ del kc.2 = some dl ∧
        Balanced out.data dl.length) →
      ∃ X D, (∀ os, writeEntries w os l = some (os ++ X)) ∧ deleteEntries del l = some D ∧
        Balanced X.data D.length := by
  intro l
  induction l with
  | nil =>
    intro _
    refine ⟨"", [], ?_, rfl, Balanced_of_braceFree braceFree_literals.1⟩
    intro os
    simp only [writeEntries, String.append_empty]
  | cons kc rest ih =>
    intro hall
    obtain ⟨out, dl, hw1, hd1, hb1⟩ := hall kc (List.mem_cons_self _ _)
    obtain ⟨X, D, hw2, hd2, hb2⟩ := ih (fun x hx => hall x (List.mem_cons_of_mem _ hx))
    obtain ⟨k, c⟩ := kc
    refine ⟨out ++ X, dl ++ D, ?_, ?_, ?_⟩
    · intro os
      simp only [writeEntries, hw1 os, hw2, String.append_assoc]
    · simp only [deleteEntries, hd1, hd2]
    · rw [String.data_append, List.length_append]
      exact Balanced_append hb1 hb2

theorem WriteFuel_braces (vars : Vars) {h : Heap} (hw : WF h) : ∀ (fuel : Nat) (a : Nat),
    a < h.length → h.length ≤ fuel + a →
    (∀ t, Descends h a t → ∃ e ents, h[t]? = some e ∧ e.body = Body.scope ents ∧
      braceFree e.name ∧ braceFree e.desc) →
    ∀ p, braceFree p →
    ∃ out dl, (∀ os, WriteFuel vars fuel h a os p = some (os ++ out)) ∧
      DeleteFuel fuel h a = some dl ∧ Balanced out.data dl.length := by
  intro fuel
  induction fuel with
  | zero => intro a ha hf; omega
  | succ f ih =>
    intro a ha hf hall p hp
    obtain ⟨e, ents, he, hb, hname, hdesc⟩ := hall a Descends.self
    have hkids : ∀ kc ∈ ents, ∃ out dl,
        (∀ os, (fun o c => WriteFuel vars f h c o (p ++ "  ")) os kc.2 = some (os ++ out)) ∧
        DeleteFuel f h kc.2 = some dl ∧ Balanced out.data dl.length := by
      intro kc hkc
      have := hw.child_fwd a e ents he hb kc.1 kc.2 hkc
      exact ih kc.2 this.2 (by omega)
        (fun t ht => hall t (Descends_of_child he hb hkc ht)) (p ++ "  ")
        (braceFree_append hp braceFree_literals.2.1)
    obtain ⟨X, D, hrunW, hrunD, hbal⟩ :=
      entries_braces (fun o c => WriteFuel vars f h c o (p ++ "  ")) (DeleteFuel f h) ents hkids
    refine ⟨commentLine p e.desc ++ p ++ e.name ++ " = \x7b\n" ++ X ++ p ++ "\x7d\n",
      D ++ [a], ?_, ?_, ?_⟩
    · intro os
      rw [WriteFuel_succ, he]
      simp only [hb]
      rw [comment_append, hrunW]
      simp only [String.append_assoc]
    · simp only [DeleteFuel, he, hb, hrunD]
    · rw [List.length_append, List.length_singleton]
      exact scope_text_balanced hp hdesc hname hbal

/-- C16: on a reachable heap, for a tree made only of scopes whose names and descriptions
contain no brace, and an indentation without brace (the default is the empty one), `Write`
returns and the text it appends has as many opening braces and as many closing braces as
the tree has scopes, and no initial segment of the text has more closing than opening
braces. -/
theorem Write_braces_match (vars : Vars) (h : Heap) (s : Nat) (p : String) (hr : Reach h)
    (hp : braceFree p)
    (hall : ∀ t, Descends h s t → ∃ e ents, h[t]? = some e ∧ e.body = Body.scope ents ∧
      braceFree e.name ∧ braceFree e.desc) :
    ∃ (out : String) (scopes : List Nat),
      (∀ os, Write vars h s os p = some (os ++ out)) ∧
      scopes.Nodup ∧ (∀ t, t ∈ scopes ↔ Descends h s t) ∧
      out.data.count lbrace = scopes.length ∧ out.data.count rbrace = scopes.length ∧
      ∀ n, (out.data.take n).count rbrace ≤ (out.data.take n).count lbrace := by
  have hs : s < h.length := by
    obtain ⟨e, _, he, _⟩ := hall s Descends.self
    exact lt_of_get he
  obtain ⟨out, dl, hwrite, hdel, hbal⟩ :=
    WriteFuel_braces vars hr.wf h.length s hs (by omega) hall p hp
  obtain ⟨dl1, hdel1, hnd, hmem⟩ := DeleteFuel_spec hr.wf hr.noShare h.length s hs (by omega)
  rw [hdel] at hdel1
  have := Option.some.inj hdel1
  subst this
  obtain ⟨hsum, hpre⟩ := braceRun_sound out.data 0 0 hbal.1
  refine ⟨out, dl, hwrite, hnd, hmem, hbal.2, ?_, ?_⟩
  · rw [← hbal.2]; omega
  · intro n
    have := hpre n
    omega

theorem Descends.lt_length {h : Heap} {s t : Nat} (hw : WF h) (hs : s < h.length)
    (hd : Descends h s t) : t < h.length := by
  induction hd with
  | self => exact hs
  | child t c e ents k _ he hb hm _ => exact (hw.child_fwd t e ents he hb k c hm).2

theorem exTree2_reach : Reach exTree2 :=
  Reach.addScope exTree1 1 "c2" "" exTree2 2
    (Reach.addScope exRoot 0 "c1" "first" exTree1 1
      (Reach.construct [] "root" "" none Reach.empty rfl) (by decide))
    (by decide)

theorem exTree2_scopes : ∀ t, Descends exTree2 0 t →
    ∃ e ents, exTree2[t]? = some e ∧ e.body = Body.scope ents ∧
      braceFree e.name ∧ braceFree e.desc := by
  intro t hd
  have hlt : t < 3 := hd.lt_length exTree2_reach.wf (by decide)
  have h3 : t = 0 ∨ t = 1 ∨ t = 2 := by omega
  rcases h3 with h0 | h0 | h0 <;> subst h0
  · exact ⟨_, _, rfl, rfl, by unfold braceFree; decide, by unfold braceFree; decide⟩
  · exact ⟨_, _, rfl, rfl, by unfold braceFree; decide, by unfold braceFree; decide⟩
  · exact ⟨_, _, rfl, rfl, by unfold braceFree; decide, by unfold braceFree; decide⟩

/-- Witness for C16: the tree of the three nested scopes `root`, `c1`, `c2`, written with
the empty indentation. -/
theorem Write_braces_match_witness :
    Reach exTree2 ∧ braceFree "" ∧
    (∀ t, Descends exTree2 0 t → ∃ e ents, exTree2[t]? = some e ∧ e.body = Body.scope ents ∧
      braceFree e.name ∧ braceFree e.desc) ∧
    ∃ (out : String) (scopes : List Nat),
      (∀ os, Write exVars exTree2 0 os "" = some (os ++ out)) ∧
      scopes.Nodup ∧ (∀ t, t ∈ scopes ↔ Descends exTree2 0 t) ∧
      out.data.count lbrace = scopes.length ∧ out.data.count rbrace = scopes.length ∧
      ∀ n, (out.data.take n).count rbrace ≤ (out.data.take n).count lbrace :=
  ⟨exTree2_reach, braceFree_literals.1, exTree2_scopes,
   Write_braces_match exVars exTree2 0 "" exTree2_reach braceFree_literals.1
     exTree2_scopes⟩

end MABE
